import Mathlib

/-!
# Verification of the `hocon.rs` parser against its specification

Shallow embedding of the repository's source files:

* `src/internals/str_unescape.rs` — the JSON string unescaper, embedded at the
  byte level (the Rust code indexes and slices a `&str` by bytes, and a slice
  whose end is not a character boundary panics, so bytes are the faithful
  granularity).
* `src/parser.rs` — the nom-combinator HOCON parser, embedded at the
  character level (every byte the parser branches on is ASCII, so character
  positions and byte positions of all tokens coincide).
* `src/loader_config.rs` — `parse_str_to_internal` and the strict-mode
  completeness check.

The types `HoconValue`, `Hash`, `HoconInternal`, `Error` and the methods of
`HoconInternal` live in repository files that are not part of the provided
sources (`internals/mod.rs`, `helper.rs`, `lib.rs`); they are modelled from
the specification where so marked.
-/

namespace Hocon

/-! ## Byte-level UTF-8 groundwork

The unescaper in `str_unescape.rs` works on the raw bytes of a `&str`.
Rust guarantees the input is valid UTF-8, and panics when a slice boundary
falls inside a multi-byte character, so we model strings entering the
unescaper as byte lists produced by a UTF-8 encoder, and we model the
boundary check explicitly. -/

/-- Standard UTF-8 encoding of one Unicode scalar value (1 to 4 bytes). -/
def utf8c (n : Nat) : List Nat :=
  if n < 0x80 then [n]
  else if n < 0x800 then [0xC0 + n / 64, 0x80 + n % 64]
  else if n < 0x10000 then [0xE0 + n / 4096, 0x80 + n / 64 % 64, 0x80 + n % 64]
  else [0xF0 + n / 262144, 0x80 + n / 4096 % 64, 0x80 + n / 64 % 64, 0x80 + n % 64]

/-- UTF-8 encoding of a string (list of characters) as a byte list; this is
the byte view that Rust's `&str` indexing exposes. -/
def utf8Str (s : List Char) : List Nat :=
  (s.map (fun c => utf8c c.toNat)).flatten

/-- A byte is a UTF-8 continuation byte (`0x80..0xBF`).  Rust's
`str::is_char_boundary` is false exactly at continuation bytes. -/
def isCont (b : Nat) : Bool := 0x80 ≤ b && b < 0xC0

/-- ASCII hexadecimal digit test on a byte, as in `char::is_ascii_hexdigit`
composed with `char::to_digit(16)` inside `u16::from_str_radix`. -/
def isHexByte (b : Nat) : Bool :=
  (0x30 ≤ b && b ≤ 0x39) || (0x61 ≤ b && b ≤ 0x66) || (0x41 ≤ b && b ≤ 0x46)

/-- Numeric value of an ASCII hexadecimal digit byte. -/
def hexVal (b : Nat) : Nat :=
  if b ≤ 0x39 then b - 0x30 else if 0x61 ≤ b then b - 0x61 + 10 else b - 0x41 + 10

/-- `u16::from_str_radix(s, 16)` on a byte slice.  Mirrors Rust: an optional
leading `+` or `-` sign, then at least one digit; for an unsigned target a
`-` sign succeeds only when every digit is zero (checked subtraction from
zero), which yields `0`.  A non-ASCII byte is never a hexadecimal digit, so
multi-byte characters inside the slice simply produce `none` (Rust's `Err`).
No overflow case is modelled because the unescaper only ever passes four
bytes, and four hexadecimal digits always fit in a `u16`. -/
def fromStrRadix16 (bs : List Nat) : Option Nat :=
  match bs with
  | [] => none
  | b :: rest =>
    if b = 0x2B then hexDigits rest
    else if b = 0x2D then
      match hexDigits rest with
      | some 0 => some 0
      | _ => none
    else hexDigits bs
where
  /-- at least one digit, all hexadecimal -/
  hexDigits : List Nat → Option Nat
  | [] => none
  | ds => if ds.all isHexByte then some (ds.foldl (fun acc d => acc * 16 + hexVal d) 0) else none

/-- UTF-16 high surrogate range `0xD800..0xDC00` (from `HIGH_SURROGATES`). -/
def isHigh (cp : Nat) : Bool := 0xD800 ≤ cp && cp < 0xDC00

/-- UTF-16 low surrogate range `0xDC00..0xE000` (from `LOW_SURROGATES`). -/
def isLow (cp : Nat) : Bool := 0xDC00 ≤ cp && cp < 0xE000

/-- Scalar value of a UTF-16 surrogate pair. -/
def surrogatePair (hi lo : Nat) : Nat :=
  0x10000 + (hi - 0xD800) * 0x400 + (lo - 0xDC00)

/-- The char-boundary panic condition for the slice
`&input[mat.end()..mat.end() + 4]`: with `mat.end() + 4 ≤ input.len()`, the
slice end is not a character boundary exactly when the byte at offset
`mat.end() + 4` exists and is a continuation byte. -/
def panicAt (rest : List Nat) : Bool :=
  match rest.head? with
  | some nb => isCont nb
  | none => false

/-- Is this byte one of the single-character escape pattern bytes of
`PATTERNS` (everything except `u`): `" \ / b f n r t`? -/
def isSimpleEscape (b : Nat) : Bool :=
  b = 0x22 || b = 0x5C || b = 0x2F || b = 0x62 || b = 0x66 || b = 0x6E || b = 0x72 || b = 0x74

/-- The replacement byte from `REPLACEMENTS` for a simple escape byte. -/
def replByte (b : Nat) : Nat :=
  if b = 0x62 then 0x08        -- \b
  else if b = 0x66 then 0x0C   -- \f
  else if b = 0x6E then 0x0A   -- \n
  else if b = 0x72 then 0x0D   -- \r
  else if b = 0x74 then 0x09   -- \t
  else b                       -- \" \\ \/ map to themselves

/-- Decoding of one `\uXXXX` escape whose four bytes of hex material are in
bounds (`str_unescape.rs`, lines 36-55): the value is parsed with
`u16::from_str_radix(_, 16)`; a high surrogate is stored in
`surrogates_vec[0]` and emits nothing; any other value is stored in
`surrogates_vec[1]` and is passed to `String::from_utf16` either paired with
`surrogates_vec[0]` (when it is a low surrogate) or alone; the `if let Ok`
drops the output when `from_utf16` fails (unpaired surrogate).  Returns the
new `surrogates_vec` contents and the emitted bytes. -/
def uDecode (s0 s1 : Nat) (hex : List Nat) : (Nat × Nat) × List Nat :=
  match fromStrRadix16 hex with
  | some cp =>
    if isHigh cp then ((cp, s1), [])
    else if isLow cp then
      if isHigh s0 then ((s0, cp), utf8c (surrogatePair s0 cp)) else ((s0, cp), [])
    else ((s0, cp), utf8c cp)
  | none => ((s0, s1), [])

/-- Core scan of `unescape` (`str_unescape.rs`, lines 20-60), embedded at the
byte level.  The Aho-Corasick automaton built from `PATTERNS` finds
non-overlapping occurrences of the two-byte sequences `\"`, `\\`, `\/`,
`\b`, `\f`, `\n`, `\r`, `\t`, `\u`; since all patterns have length two and
begin with `\`, its `find_iter` is equivalent to this left-to-right scan:
at a `\` followed by a pattern byte, the pattern matches and scanning resumes
after it, otherwise the byte is literal output.

For a `\u` match the code `&input[mat.end()..mat.end() + 4]` takes the next
four *bytes* when `mat.end() + 4 ≤ input.len()`; Rust panics if the slice end
is not a character boundary, which happens exactly when the byte that follows
those four bytes is a continuation byte.  `none` models that panic.  The two
`u16` cells of `surrogates_vec` persist across matches and are threaded as
`s0`, `s1` (only `s0`, the pending high surrogate, is ever read back). -/
def uScan (fuel : Nat) (s0 s1 : Nat) (l : List Nat) : Option (List Nat) :=
  match l, fuel with
  | [], _ => some []
  | _ :: _, 0 => none          -- fuel exhausted; unreachable when `l.length ≤ fuel`
  | b :: rest, f + 1 =>
    if b = 0x5C then
      match rest with
      | [] => some [0x5C]      -- lone trailing backslash: no match, literal output
      | c :: rest2 =>
        if isSimpleEscape c then
          (uScan f s0 s1 rest2).map (fun out => replByte c :: out)
        else if c = 0x75 then
          match rest2 with
          | h1 :: h2 :: h3 :: h4 :: tail =>
            -- `mat.end() + 4 <= input.len()`: four bytes of hex material exist
            if panicAt tail then
              none   -- `&input[mat.end()..mat.end()+4]` panics: end not a char boundary
            else
              let d := uDecode s0 s1 [h1, h2, h3, h4]
              (uScan f d.1.1 d.1.2 tail).map (fun out => d.2 ++ out)
          | _ =>
            -- fewer than 4 bytes left: the hex material is not consumed and
            -- `last_start` stays at `mat.end()`, so the tail is literal output
            (uScan f s0 s1 rest2).map id
        else
          -- `\` not part of any pattern: literal byte, scan resumes after it
          (uScan f s0 s1 rest).map (fun out => 0x5C :: out)
    else
      (uScan f s0 s1 rest).map (fun out => b :: out)
termination_by structural fuel

/-- `unescape` from `str_unescape.rs`: the byte-level scan started with the
zero-initialised `surrogates_vec`.  `none` models a panic.  Every recursion
step of the scan consumes at least one byte, so `bytes.length` is always
enough fuel and the fuel-exhaustion branch is unreachable
(`uScan_fuel` below makes this precise). -/
def unescapeB (bytes : List Nat) : Option (List Nat) :=
  uScan bytes.length 0 0 bytes

/-! ## Lemmas about the unescape scan -/

/-- A byte list without `\` (`0x5C`) passes through the scan unchanged, from
any surrogate state and with any sufficient fuel. -/
theorem uScan_clean (l : List Nat) : ∀ (fuel s0 s1 : Nat),
    (∀ b ∈ l, b ≠ 0x5C) → l.length ≤ fuel → uScan fuel s0 s1 l = some l := by
  induction l with
  | nil => intro fuel _ _ _ _; cases fuel <;> rfl
  | cons b rest ih =>
    intro fuel s0 s1 hcl hlen
    cases fuel with
    | zero => simp at hlen
    | succ f =>
      have hb : ¬(b = 0x5C) := hcl b (by simp)
      have hrest : rest.length ≤ f := by simp at hlen; omega
      simp only [uScan, if_neg hb]
      rw [ih f s0 s1 (fun x hx => hcl x (by simp [hx])) hrest]
      rfl

/-- A `\`-free prefix of the input is emitted verbatim and the scan proceeds
on the remainder with the same surrogate state. -/
theorem uScan_append_clean (pre : List Nat) : ∀ (fuel s0 s1 : Nat) (rest : List Nat),
    (∀ b ∈ pre, b ≠ 0x5C) →
    uScan (fuel + pre.length) s0 s1 (pre ++ rest) =
      (uScan fuel s0 s1 rest).map (fun out => pre ++ out) := by
  induction pre with
  | nil =>
    intro fuel s0 s1 rest _
    simp
  | cons b pre' ih =>
    intro fuel s0 s1 rest hcl
    have hb : ¬(b = 0x5C) := hcl b (by simp)
    have : fuel + (b :: pre').length = (fuel + pre'.length) + 1 := by simp; omega
    rw [this]
    simp only [List.cons_append, uScan, if_neg hb, List.append_eq]
    rw [ih (fuel) s0 s1 rest (fun x hx => hcl x (by simp [hx]))]
    cases uScan fuel s0 s1 rest <;> rfl

/-- Scanning a `\uHHHH\uLLLL` pair whose first escape decodes to a high
surrogate and second to a low surrogate emits the UTF-8 encoding of the
combined code point and continues on the remainder. -/
theorem uScan_pair (fr : Nat) (rest : List Nat) (h1 h2 h3 h4 g1 g2 g3 g4 H L s0 s1 : Nat)
    (hH : fromStrRadix16 [h1, h2, h3, h4] = some H)
    (hL : fromStrRadix16 [g1, g2, g3, g4] = some L)
    (hHigh : isHigh H = true) (hLow : isLow L = true)
    (hB : panicAt rest = false) :
    uScan (fr + 12) s0 s1
        (0x5C :: 0x75 :: h1 :: h2 :: h3 :: h4 :: 0x5C :: 0x75 :: g1 :: g2 :: g3 :: g4 :: rest) =
      (uScan (fr + 10) H L rest).map (fun out => utf8c (surrogatePair H L) ++ out) := by
  have hLnotHigh : isHigh L = false := by
    simp [isHigh, isLow] at *
    omega
  have d1 : uDecode s0 s1 [h1, h2, h3, h4] = ((H, s1), []) := by
    simp [uDecode, hH, hHigh]
  have d2 : uDecode H s1 [g1, g2, g3, g4] = ((H, L), utf8c (surrogatePair H L)) := by
    simp [uDecode, hL, hLnotHigh, hLow, hHigh]
  calc uScan (fr + 12) s0 s1
        (0x5C :: 0x75 :: h1 :: h2 :: h3 :: h4 :: 0x5C :: 0x75 :: g1 :: g2 :: g3 :: g4 :: rest)
      = (uScan (fr + 11) (uDecode s0 s1 [h1, h2, h3, h4]).1.1 (uDecode s0 s1 [h1, h2, h3, h4]).1.2
          (0x5C :: 0x75 :: g1 :: g2 :: g3 :: g4 :: rest)).map
            (fun out => (uDecode s0 s1 [h1, h2, h3, h4]).2 ++ out) := rfl
    _ = (uScan (fr + 11) H s1 (0x5C :: 0x75 :: g1 :: g2 :: g3 :: g4 :: rest)).map
          (fun out => [] ++ out) := by rw [d1]
    _ = (if panicAt rest = true then none
         else (uScan (fr + 10) (uDecode H s1 [g1, g2, g3, g4]).1.1
            (uDecode H s1 [g1, g2, g3, g4]).1.2 rest).map
              (fun out => (uDecode H s1 [g1, g2, g3, g4]).2 ++ out)).map
          (fun out => [] ++ out) := rfl
    _ = ((uScan (fr + 10) (uDecode H s1 [g1, g2, g3, g4]).1.1
            (uDecode H s1 [g1, g2, g3, g4]).1.2 rest).map
              (fun out => (uDecode H s1 [g1, g2, g3, g4]).2 ++ out)).map
          (fun out => [] ++ out) := by rw [hB]; simp only [Bool.false_eq_true, if_false]
    _ = ((uScan (fr + 10) H L rest).map
          (fun out => utf8c (surrogatePair H L) ++ out)).map (fun out => [] ++ out) := by rw [d2]
    _ = (uScan (fr + 10) H L rest).map (fun out => utf8c (surrogatePair H L) ++ out) := by
          simp only [Option.map_map, Function.comp_def, List.nil_append]

/-- Scanning a `\uXXXX` escape outside both surrogate ranges emits the UTF-8
encoding of exactly that code point and continues on the remainder with the
second surrogate cell updated. -/
theorem uScan_lone (fr : Nat) (rest : List Nat) (x1 x2 x3 x4 X s0 s1 : Nat)
    (hX : fromStrRadix16 [x1, x2, x3, x4] = some X)
    (hXa : isHigh X = false) (hXb : isLow X = false)
    (hB : panicAt rest = false) :
    uScan (fr + 6) s0 s1 (0x5C :: 0x75 :: x1 :: x2 :: x3 :: x4 :: rest) =
      (uScan (fr + 5) s0 X rest).map (fun out => utf8c X ++ out) := by
  have dX : uDecode s0 s1 [x1, x2, x3, x4] = ((s0, X), utf8c X) := by
    simp [uDecode, hX, hXa, hXb]
  calc uScan (fr + 6) s0 s1 (0x5C :: 0x75 :: x1 :: x2 :: x3 :: x4 :: rest)
      = (if panicAt rest = true then none
         else (uScan (fr + 5) (uDecode s0 s1 [x1, x2, x3, x4]).1.1
            (uDecode s0 s1 [x1, x2, x3, x4]).1.2 rest).map
              (fun out => (uDecode s0 s1 [x1, x2, x3, x4]).2 ++ out)) := rfl
    _ = (uScan (fr + 5) (uDecode s0 s1 [x1, x2, x3, x4]).1.1
            (uDecode s0 s1 [x1, x2, x3, x4]).1.2 rest).map
              (fun out => (uDecode s0 s1 [x1, x2, x3, x4]).2 ++ out) := by
          rw [hB]; simp only [Bool.false_eq_true, if_false]
    _ = (uScan (fr + 5) s0 X rest).map (fun out => utf8c X ++ out) := by rw [dX]

/-! ## Bridging characters and bytes -/

/-- The UTF-8 encoding of a character other than `\` contains no `0x5C` byte:
a one-byte encoding is the scalar itself, and every byte of a multi-byte
encoding is at least `0x80`. -/
theorem utf8c_no_backslash (n : Nat) (h : ¬ n = 0x5C) : ∀ b ∈ utf8c n, b ≠ 0x5C := by
  intro b hb
  unfold utf8c at hb
  split_ifs at hb <;> simp at hb <;> omega

/-- Characters and their encodings: a string without `\` encodes to bytes
without `0x5C`. -/
theorem utf8Str_no_backslash (s : List Char) (h : '\\' ∉ s) : ∀ b ∈ utf8Str s, b ≠ 0x5C := by
  intro b hb
  simp only [utf8Str, List.mem_flatten, List.mem_map] at hb
  obtain ⟨_, ⟨c, hc, rfl⟩, hbs⟩ := hb
  have hcn : ¬ c.toNat = 0x5C := by
    intro hcn
    have : c = '\\' := by
      have := Char.ofNat_toNat c
      rw [hcn] at this
      exact this.symm.trans rfl
    exact h (this ▸ hc)
  exact utf8c_no_backslash _ hcn b hbs

/-- The first byte of a UTF-8 encoded string is never a continuation byte,
so the boundary check after a `\u` escape passes on encoded suffixes. -/
theorem panicAt_utf8Str (s : List Char) : panicAt (utf8Str s) = false := by
  cases s with
  | nil => rfl
  | cons c s' =>
    have : utf8Str (c :: s') = utf8c c.toNat ++ utf8Str s' := by
      simp [utf8Str]
    rw [this]
    unfold utf8c
    split_ifs <;> simp [panicAt, isCont] <;> omega

/-! ## Claims C6, C9, C10 about the string unescaper -/

/-- C6: for every quoted-string content containing a `\uHHHH` escape encoding
a UTF-16 high surrogate immediately followed by a `\uLLLL` escape encoding a
low surrogate, unescaping produces the single code point formed by the
surrogate pair; and a `\uXXXX` escape outside the surrogate ranges produces
exactly the code point `XXXX`.  The surrounding material (`pre`, `post`) is
arbitrary escape-free text, passed through unchanged. -/
theorem c6_unicode_escapes (pre post : List Char)
    (h1 h2 h3 h4 g1 g2 g3 g4 H L x1 x2 x3 x4 X : Nat)
    (hpre : '\\' ∉ pre) (hpost : '\\' ∉ post)
    (hH : fromStrRadix16 [h1, h2, h3, h4] = some H)
    (hL : fromStrRadix16 [g1, g2, g3, g4] = some L)
    (hHigh : isHigh H = true) (hLow : isLow L = true)
    (hX : fromStrRadix16 [x1, x2, x3, x4] = some X)
    (hXa : isHigh X = false) (hXb : isLow X = false) :
    unescapeB (utf8Str pre ++ ([0x5C, 0x75, h1, h2, h3, h4, 0x5C, 0x75, g1, g2, g3, g4]
        ++ utf8Str post)) =
      some (utf8Str pre ++ (utf8c (surrogatePair H L) ++ utf8Str post))
    ∧ unescapeB (utf8Str pre ++ ([0x5C, 0x75, x1, x2, x3, x4] ++ utf8Str post)) =
      some (utf8Str pre ++ (utf8c X ++ utf8Str post)) := by
  have hclean := utf8Str_no_backslash pre hpre
  have hcleanPost := utf8Str_no_backslash post hpost
  constructor
  · rw [unescapeB,
      show (utf8Str pre ++ ([0x5C, 0x75, h1, h2, h3, h4, 0x5C, 0x75, g1, g2, g3, g4]
          ++ utf8Str post)).length
        = ((utf8Str post).length + 12) + (utf8Str pre).length from by simp; omega,
      uScan_append_clean (utf8Str pre) ((utf8Str post).length + 12) 0 0 _ hclean,
      show ([0x5C, 0x75, h1, h2, h3, h4, 0x5C, 0x75, g1, g2, g3, g4] ++ utf8Str post)
        = 0x5C :: 0x75 :: h1 :: h2 :: h3 :: h4 :: 0x5C :: 0x75 :: g1 :: g2 :: g3 :: g4
            :: utf8Str post from by simp,
      uScan_pair ((utf8Str post).length) (utf8Str post) h1 h2 h3 h4 g1 g2 g3 g4 H L 0 0
        hH hL hHigh hLow (panicAt_utf8Str post),
      uScan_clean (utf8Str post) ((utf8Str post).length + 10) H L hcleanPost (by omega)]
    rfl
  · rw [unescapeB,
      show (utf8Str pre ++ ([0x5C, 0x75, x1, x2, x3, x4] ++ utf8Str post)).length
        = ((utf8Str post).length + 6) + (utf8Str pre).length from by simp; omega,
      uScan_append_clean (utf8Str pre) ((utf8Str post).length + 6) 0 0 _ hclean,
      show ([0x5C, 0x75, x1, x2, x3, x4] ++ utf8Str post)
        = 0x5C :: 0x75 :: x1 :: x2 :: x3 :: x4 :: utf8Str post from by simp,
      uScan_lone ((utf8Str post).length) (utf8Str post) x1 x2 x3 x4 X 0 0
        hX hXa hXb (panicAt_utf8Str post),
      uScan_clean (utf8Str post) ((utf8Str post).length + 5) 0 X hcleanPost (by omega)]
    rfl

/-- Witness for C6 at a concrete input: `"x𝄞y"` decodes the pair
`U+D834/U+DD1E` to `U+1D11E` (𝄞), and `"xAy"` decodes to `A`. -/
theorem c6_unicode_escapes_witness :
    unescapeB (utf8Str ['x'] ++ ([0x5C, 0x75, 0x44, 0x38, 0x33, 0x34, 0x5C, 0x75, 0x44, 0x44,
        0x31, 0x45] ++ utf8Str ['y'])) =
      some (utf8Str ['x'] ++ (utf8c (surrogatePair 0xD834 0xDD1E) ++ utf8Str ['y']))
    ∧ unescapeB (utf8Str ['x'] ++ ([0x5C, 0x75, 0x30, 0x30, 0x34, 0x31] ++ utf8Str ['y'])) =
      some (utf8Str ['x'] ++ (utf8c 0x41 ++ utf8Str ['y'])) :=
  c6_unicode_escapes ['x'] ['y'] 0x44 0x38 0x33 0x34 0x44 0x44 0x31 0x45 0xD834 0xDD1E
    0x30 0x30 0x34 0x31 0x41 (by decide) (by decide) (by decide) (by decide) (by decide)
    (by decide) (by decide) (by decide) (by decide)

/-- C9: refuted — the unescaper is not total.  On the four-character input
`\ué€` (bytes `5C 75 C3 A9 E2 82 AC`), the slice
`&input[mat.end()..mat.end() + 4]` ends at byte offset 6, in the middle of
the three-byte encoding of `€`, and Rust panics with a char-boundary error
(modelled as `none`). -/
theorem c9_unescape_panics : unescapeB (utf8Str ['\\', 'u', 'é', '€']) = none := by decide

/-- C10: the unescaper is the identity on every input string containing no
backslash character. -/
theorem c10_identity_escape_free (s : List Char) (h : '\\' ∉ s) :
    unescapeB (utf8Str s) = some (utf8Str s) :=
  uScan_clean (utf8Str s) (utf8Str s).length 0 0 (utf8Str_no_backslash s h) (Nat.le_refl _)

/-- Witness for C10 at the concrete escape-free input `hello"{}é`. -/
theorem c10_identity_escape_free_witness :
    unescapeB (utf8Str ['h', 'e', 'l', 'l', 'o', '"', '{', '}', 'é']) =
      some (utf8Str ['h', 'e', 'l', 'l', 'o', '"', '{', '}', 'é']) :=
  c10_identity_escape_free _ (by decide)

/-! ## The parser (`parser.rs`), character level

The parser operates on `&str` input but every byte it compares against is
ASCII, so character positions and byte positions of all its tokens coincide;
the embedding uses `List Char`.  Parsers return `Option (remaining × value)`
in nom's `(remaining, value)` order; `none` collapses nom's
`Err(Error)` / `Err(Failure)` (no combinator in this file distinguishes
them). -/

/-- Count the leading `"` quotes of a byte run and return the remainder
(the inner loop of `multiline_string`, lines 227-231). -/
def takeQuotes : List Char → Nat × List Char
  | [] => (0, [])
  | c :: cs =>
    if c = '"' then
      let p := takeQuotes cs
      (p.1 + 1, p.2)
    else (0, c :: cs)

/-- Body scan of `multiline_string` (`parser.rs`, lines 220-246), after the
opening `"""` has been consumed.  The source walks the bytes with an index;
on a quote it counts the whole consecutive run: a run of three or more ends
the string — the content is everything before the last three quotes of that
run (extras stay in the content) and parsing resumes after the run; a
shorter run stays in the content and the walk continues after it.  Reaching
the end without a 3-run is an error.  This structural rendition returns
nom's `(remaining, content)`; a run of one or two quotes is re-emitted and
scanning continues after it, which produces the same content because the
source's content is a prefix slice of the input.  Every step consumes at
least one character, so `l.length + 1` is always enough fuel. -/
def mlBody (fuel : Nat) (l : List Char) : Option (List Char × List Char) :=
  match l, fuel with
  | [], _ => none                -- no closing `"""` found
  | _ :: _, 0 => none            -- fuel exhausted; unreachable when `l.length < fuel`
  | c :: cs, f + 1 =>
    if c = '"' then
      match cs with
      | [] => none
      | c2 :: cs2 =>
        if c2 = '"' then
          match cs2 with
          | [] => none
          | c3 :: cs3 =>
            if c3 = '"' then
              -- run of ≥ 3: the extras beyond three are literal content
              let p := takeQuotes cs3
              some (p.2, List.replicate p.1 '"')
            else (mlBody f cs2).map (fun r => (r.1, '"' :: '"' :: r.2))
        else (mlBody f cs).map (fun r => (r.1, '"' :: r.2))
    else (mlBody f cs).map (fun r => (r.1, c :: r.2))
termination_by structural fuel

/-- `multiline_string` (`parser.rs`, lines 212-247): `tag("\"\"\"")` then the
body scan. -/
def multiline_string (input : List Char) : Option (List Char × List Char) :=
  match input with
  | '"' :: '"' :: '"' :: rest => mlBody (rest.length + 1) rest
  | _ => none

/-- Does the list start with three consecutive quote characters? -/
def startsTriple (l : List Char) : Bool :=
  match l with
  | a :: b :: c :: _ => a = '"' && b = '"' && c = '"'
  | _ => false

/-- Some position of the list starts three consecutive quotes. -/
def hasTriple : List Char → Bool
  | [] => false
  | x :: xs => startsTriple (x :: xs) || hasTriple xs

/-- Last character is a quote. -/
def endsQuote (l : List Char) : Bool := l.getLast? == some '"'

/-- First character is a quote. -/
def headQuote (l : List Char) : Bool := l.head? == some '"'

theorem takeQuotes_replicate (m : Nat) (rest : List Char) (h : headQuote rest = false) :
    takeQuotes (List.replicate m '"' ++ rest) = (m, rest) := by
  induction m with
  | zero =>
    cases rest with
    | nil => rfl
    | cons c cs =>
      have : ¬(c = '"') := by simp [headQuote] at h; exact h
      simp [takeQuotes, this]
  | succ m ih =>
    simp [List.replicate_succ, takeQuotes, ih]

/-- The scan with no leading content: `k ≥ 3` quotes then a non-quote
remainder terminate immediately with the `k - 3` extra quotes as content. -/
theorem mlBody_empty_content (f k : Nat) (hk : 3 ≤ k) (rest : List Char)
    (hrest : headQuote rest = false) :
    mlBody (f + 1) (List.replicate k '"' ++ rest) = some (rest, List.replicate (k - 3) '"') := by
  obtain ⟨k3, rfl⟩ : ∃ k3, k = k3 + 3 := ⟨k - 3, by omega⟩
  have he : List.replicate (k3 + 3) '"' ++ rest
      = '"' :: '"' :: '"' :: (List.replicate k3 '"' ++ rest) := by
    rw [show k3 + 3 = 3 + k3 by omega, List.replicate_add]
    rfl
  rw [he]
  simp only [mlBody, if_pos rfl]
  rw [takeQuotes_replicate k3 rest hrest]
  simp

theorem hasTriple_tail {x : Char} {xs : List Char} (h : hasTriple (x :: xs) = false) :
    hasTriple xs = false := by
  simp [hasTriple] at h
  tauto

theorem endsQuote_tail {x : Char} {xs : List Char} (h : endsQuote (x :: xs) = false) :
    endsQuote xs = false := by
  cases xs with
  | nil => rfl
  | cons y ys => simpa [endsQuote, List.getLast?_cons_cons] using h

/-- Main terminator lemma for the multi-line string body: for content `a`
with no 3-quote run and not ending in a quote, followed by a run of `k ≥ 3`
quotes and a remainder not starting with a quote, the scan returns content
`a` plus `k - 3` literal quotes and resumes exactly after the run. -/
theorem mlBody_terminator : ∀ (fuel : Nat) (a : List Char), a.length < fuel →
    hasTriple a = false → endsQuote a = false →
    ∀ (k : Nat), 3 ≤ k → ∀ (rest : List Char), headQuote rest = false →
    mlBody fuel (a ++ List.replicate k '"' ++ rest) =
      some (rest, a ++ List.replicate (k - 3) '"') := by
  intro fuel
  induction fuel with
  | zero => intro a ha; omega
  | succ f ih =>
    intro a ha h3 hend k hk rest hrest
    cases a with
    | nil => simpa using mlBody_empty_content f k hk rest hrest
    | cons c a' =>
      by_cases hc : c = '"'
      · subst hc
        cases a' with
        | nil => simp [endsQuote] at hend
        | cons d a'' =>
          by_cases hd : d = '"'
          · subst hd
            cases a'' with
            | nil => simp [endsQuote] at hend
            | cons e a3 =>
              by_cases he : e = '"'
              · subst he
                simp [hasTriple, startsTriple] at h3
              · -- a run of exactly two quotes inside the content
                have h3' : hasTriple (e :: a3) = false :=
                  hasTriple_tail (hasTriple_tail h3)
                have hend' : endsQuote (e :: a3) = false :=
                  endsQuote_tail (endsQuote_tail hend)
                have hlen : (e :: a3).length < f := by simp at ha ⊢; omega
                have step := ih (e :: a3) hlen h3' hend' k hk rest hrest
                simp only [List.cons_append] at step ⊢
                simp only [mlBody, if_pos rfl, if_neg he]
                rw [step]
                simp
          · -- a run of exactly one quote inside the content
            have h3' : hasTriple (d :: a'') = false := hasTriple_tail h3
            have hend' : endsQuote (d :: a'') = false := endsQuote_tail hend
            have hlen : (d :: a'').length < f := by simp at ha ⊢; omega
            have step := ih (d :: a'') hlen h3' hend' k hk rest hrest
            simp only [List.cons_append] at step ⊢
            simp only [mlBody, if_pos rfl, if_neg hd]
            rw [step]
            simp
      · -- an ordinary content character
        have h3' : hasTriple a' = false := hasTriple_tail h3
        have hend' : endsQuote a' = false := endsQuote_tail hend
        have hlen : a'.length < f := by simp at ha ⊢; omega
        have step := ih a' hlen h3' hend' k hk rest hrest
        simp only [List.cons_append] at step ⊢
        simp only [mlBody, if_neg hc]
        rw [step]
        simp

/-- C1: a triple-quoted multi-line string terminates at a run of 3 or more
consecutive quotes; the quotes of that run beyond the final three are
literal content, and parsing resumes immediately after the run.  Stated for
an arbitrary content `a` (no triple-quote run, not ending in a quote — so
that the trailing run is exactly `k`), an arbitrary run length `k ≥ 3`, and
an arbitrary remainder not starting with a quote: the parsed string is `a`
followed by `k - 3` literal quotes, and the remainder is returned intact.
In particular `"""a"b""""` parses to content `a"b"` (see the witness). -/
theorem c1_multiline_terminator (a rest : List Char) (k : Nat)
    (h3 : hasTriple a = false) (hend : endsQuote a = false) (hk : 3 ≤ k)
    (hrest : headQuote rest = false) :
    multiline_string ('"' :: '"' :: '"' :: (a ++ List.replicate k '"' ++ rest)) =
      some (rest, a ++ List.replicate (k - 3) '"') := by
  have : multiline_string ('"' :: '"' :: '"' :: (a ++ List.replicate k '"' ++ rest))
      = mlBody ((a ++ List.replicate k '"' ++ rest).length + 1)
          (a ++ List.replicate k '"' ++ rest) := rfl
  rw [this]
  exact mlBody_terminator _ a (by simp; omega) h3 hend k hk rest hrest

/-- Witness for C1: `"""a"b""""` (content `a"b` followed by four quotes)
yields the string `a"b"` — one literal trailing quote, three quotes consumed
as the terminator — with nothing left to parse. -/
theorem c1_multiline_terminator_witness :
    multiline_string ('"' :: '"' :: '"' :: (['a', '"', 'b'] ++ List.replicate 4 '"' ++ [])) =
      some ([], ['a', '"', 'b'] ++ List.replicate 1 '"') :=
  c1_multiline_terminator ['a', '"', 'b'] [] 4 (by decide) (by decide) (by decide) (by decide)

/-! ## `unquoted_string` (`parser.rs`, lines 249-296) -/

/-- The structural character set of `is_special_char` (lines 250-275). -/
def is_special_char (c : Char) : Bool :=
  c = '$' || c = '"' || c = '{' || c = '}' || c = '[' || c = ']' || c = ':'
    || c = '=' || c = ',' || c = '+' || c = '#' || c = '`' || c = '^' || c = '?'
    || c = '!' || c = '@' || c = '*' || c = '&' || c = Char.ofNat 39  -- single quote
    || c = '\\' || c = '\t' || c = '\n'

/-- The scan loop of `unquoted_string` (lines 277-289): the length of the
matched run.  The loop breaks on a structural character, or on `/` when the
next character is also `/`; otherwise the character is included and the walk
continues. -/
def uqEnd : List Char → Nat
  | [] => 0
  | c :: cs =>
    if is_special_char c then 0
    else if c = '/' && cs.head? == some '/' then 0
    else 1 + uqEnd cs

/-- `unquoted_string` (lines 249-296): fails on a zero-length match,
otherwise returns `(remaining, matched run)`. -/
def unquoted_string (input : List Char) : Option (List Char × List Char) :=
  if uqEnd input = 0 then none
  else some (input.drop (uqEnd input), input.take (uqEnd input))

/-- Modelled from the spec: the claim's own description of the matched text —
the maximal run excluding the fixed structural-character set and stopping
before any occurrence of the two-character sequence `//`. -/
def maximalRun : List Char → List Char
  | [] => []
  | c :: cs =>
    if is_special_char c then []
    else if c = '/' && cs.head? == some '/' then []
    else c :: maximalRun cs

theorem uqEnd_le_length (input : List Char) : uqEnd input ≤ input.length := by
  induction input with
  | nil => simp [uqEnd]
  | cons c cs ih =>
    by_cases h1 : is_special_char c
    · simp [uqEnd, h1]
    · by_cases h2 : (c = '/' && cs.head? == some '/') = true
      · simp [uqEnd, h1, h2]
      · simp only [uqEnd, h1, h2, if_false, Bool.false_eq_true, List.length_cons]
        omega

theorem maximalRun_take (input : List Char) :
    maximalRun input = input.take (uqEnd input)
      ∧ (maximalRun input).length = uqEnd input := by
  induction input with
  | nil => simp [maximalRun, uqEnd]
  | cons c cs ih =>
    by_cases h1 : is_special_char c
    · simp [maximalRun, uqEnd, h1]
    · by_cases h2 : (c = '/' && cs.head? == some '/') = true
      · simp [maximalRun, uqEnd, h1, h2]
      · simp only [maximalRun, uqEnd, h1, h2, if_false, Bool.false_eq_true]
        constructor
        · rw [show 1 + uqEnd cs = uqEnd cs + 1 by omega]
          simp [ih.1]
        · simp [ih.2]
          omega

/-- C7: `unquoted_string` matches exactly the claim's maximal run: it
returns the maximal prefix that excludes the structural-character set and
stops before any `//`, together with the rest of the input, and it fails
precisely when that maximal run is empty (first character structural, or
leading `//`, or empty input). -/
theorem c7_unquoted_maximal_run (input : List Char) :
    unquoted_string input =
      (if maximalRun input = [] then none
       else some (input.drop (maximalRun input).length, maximalRun input))
    ∧ (∀ c ∈ maximalRun input, is_special_char c = false)
    ∧ (maximalRun input ++ input.drop (maximalRun input).length = input) := by
  obtain ⟨htake, hlen⟩ := maximalRun_take input
  refine ⟨?_, ?_, ?_⟩
  · rw [unquoted_string, hlen, htake]
    by_cases h0 : uqEnd input = 0
    · simp [h0]
    · rw [if_neg h0, if_neg ?_]
      intro hcontra
      rcases List.take_eq_nil_iff.mp hcontra with h | h
      · exact h0 h
      · subst h
        exact h0 rfl
  · intro c hc
    rw [htake] at hc
    clear htake hlen
    induction input generalizing c with
    | nil => simp [uqEnd] at hc
    | cons d cs ih =>
      by_cases h1 : is_special_char d
      · simp [uqEnd, h1] at hc
      · by_cases h2 : (d = '/' && cs.head? == some '/') = true
        · simp [uqEnd, h1, h2] at hc
        · simp only [uqEnd, h1, h2, if_false, Bool.false_eq_true,
            show 1 + uqEnd cs = uqEnd cs + 1 by omega, List.take_succ_cons] at hc
          simp at hc
          rcases hc with rfl | hc
          · simpa using h1
          · exact ih c hc
  · rw [hlen, htake]
    exact List.take_append_drop _ _

/-! ## Data model

`HoconValue`, `Hash`, `HoconInternal`, the `Error` enum, `Include` and the
helpers live in `internals/mod.rs`, `helper.rs` and `lib.rs`, which are not
among the provided sources.  The variants and fields below are exactly those
used by `parser.rs`/`loader_config.rs`; the operations are modelled from the
specification (§3 "Document", §4.1, §6) as noted on each one. -/

inductive HoconValue where
  | Null
  | Boolean (b : Bool)
  | Integer (i : Int)
  /-- `Real(f64)` in the source.  The claims settled here never depend on the
  numeric value of a float, only on which variant is produced, so the `f64`
  payload is represented by the token text it was parsed from. -/
  | Real (lit : List Char)
  | String (s : List Char)
  | UnquotedString (s : List Char)
  /-- Modelled from the spec §4.1: adjacent value tokens fold into one value
  pending resolution (the target of `HoconValue::maybe_concat`). -/
  | Concat (vs : List HoconValue)
  | PathSubstitution (target : HoconValue) (optional : Bool) (original : Option (List Char))
  | PathSubstitutionInParent (target : HoconValue)
  | ToConcatToArray (value : HoconValue) (original_path : List HoconValue)
      (item_id : List Char)

/-- Modelled from the spec §3: a Document is an ordered (path, value) entry
sequence; `Hash` is the entry-list representation used by the parser. -/
abbrev Hash := List (List HoconValue × HoconValue)

/-- Modelled from the spec §3: the flattened Document. -/
structure HoconInternal where
  internal : Hash

/-- The crate's `Error` enum (`lib.rs`), restricted to the variants used by
the embedded code: `Error::Parse`, `Error::Deserialization { message }`,
`Error::Include { path }`. -/
inductive HoconError where
  | Parse
  | Deserialization (message : List Char)
  | Include (path : List Char)

/-- `Result<T>` with the crate's error type. -/
abbrev Res (α : Type) := Except HoconError α

/-- The `Include` directive enum from `internals` as used by the parser:
`Include::File(name)` and `Include::Url(url)`. -/
inductive IncludeDir where
  | file (name : List Char)
  | url (name : List Char)

/-- Modelled from the spec §4.1: `maybe_concat` folds adjacent value tokens
into one pending concatenation. -/
def HoconValue.maybe_concat (vs : List HoconValue) : HoconValue := .Concat vs

namespace HoconInternal

/-- `from_object` wraps an entry list (used as `HoconInternal::from_object`). -/
def from_object (h : Hash) : HoconInternal := ⟨h⟩

/-- `from_value` — a single entry at the empty path. -/
def from_value (v : HoconValue) : HoconInternal := ⟨[([], v)]⟩

/-- Modelled from the spec §3: array elements are addressed by an index path
component, so `from_array` prefixes each element's entries with its index. -/
def from_array (xs : List HoconInternal) : HoconInternal :=
  ⟨(xs.enum.map (fun p => p.2.internal.map
      (fun e => (HoconValue.Integer (Int.ofNat p.1) :: e.1, e.2)))).flatten⟩

/-- Modelled from the spec §3: "prefix every path with a given prefix". -/
def add_to_path (h : HoconInternal) (path : List HoconValue) : HoconInternal :=
  ⟨h.internal.map (fun e => (path ++ e.1, e.2))⟩

/-- Entry-wise transformation (used by the `+=` branch of `key_value`). -/
def transform (h : HoconInternal)
    (f : List HoconValue → HoconValue → List HoconValue × HoconValue) : HoconInternal :=
  ⟨h.internal.map (fun e => f e.1 e.2)⟩

/-- Modelled from the spec §3: "concatenate two Documents". -/
def add (h other : HoconInternal) : HoconInternal := ⟨h.internal ++ other.internal⟩

/-- The empty Document. -/
def empty : HoconInternal := ⟨[]⟩

/-- Modelled from the spec §6: each properties pair becomes one single-level
Document entry. -/
def from_properties (pairs : List (List Char × List Char)) : HoconInternal :=
  ⟨pairs.map (fun p => ([HoconValue.String p.1], HoconValue.String p.2))⟩

end HoconInternal

/-- The loader configuration (`loader_config.rs`) restricted to what the
embedded code reads, plus oracles for the externally-performed work:
`HoconInternal::from_include` reads and parses files/URLs through the
external Source Reader (spec §4.3, §6), and `java_properties::read` is the
external Properties Decoder (spec §6).  Both are modelled as configuration-
carried oracles: fixed functions of the directive/text. -/
structure HoconLoaderConfig where
  strict : Bool
  /-- Modelled from the spec §4.3: the document produced by
  `HoconInternal::from_include(directive, config)`. -/
  includeVal : IncludeDir → Res HoconInternal
  /-- Modelled from the spec §4.3: the document spliced in by
  `add_include` for a root-level include. -/
  includeAdd : IncludeDir → Res HoconInternal
  /-- Modelled from the spec §6: `java_properties::read`, yielding ordered
  key/value pairs or a format error. -/
  propsDecode : List Char → Option (List (List Char × List Char))

/-- Modelled from the spec §4.3: a root-level include splices the included
document into the current one (`HoconInternal::add_include`). -/
def HoconInternal.add_include (d : HoconInternal) (inc : IncludeDir)
    (cfg : HoconLoaderConfig) : Res HoconInternal :=
  (cfg.includeAdd inc).map (fun di => d.add di)

/-- `helper::extract_result` (`helper.rs`): collect a list of results,
surfacing the first error. -/
def extract_result (xs : List (Res α)) : Res (List α) :=
  xs.foldr
    (fun r acc =>
      match r, acc with
      | .ok v, .ok vs => .ok (v :: vs)
      | .error e, _ => .error e
      | .ok _, .error e => .error e)
    (.ok [])

/-! ## Stateless base parsers (`parser.rs`, lines 78-210, 298-434) -/

/-- Parser type: `none` is nom's `Err` (`Error`/`Failure` collapsed — no
combinator in this file distinguishes them), `some (remaining, value)` is
nom's `Ok((remaining, value))`. -/
abbrev P (α : Type) := List Char → Option (List Char × α)

/-- The characters of `space` (lines 78-88): space, tab, BOM, no-break
space, figure space, narrow no-break space — each `tag` is one character,
so `many0` of them is a `dropWhile`. -/
def isSpaceChar (c : Char) : Bool :=
  c = ' ' || c = '\t' || c = '﻿' || c = ' ' || c = ' ' || c = ' '

/-- `space` (lines 78-88): always succeeds. -/
def space (input : List Char) : List Char := input.dropWhile isSpaceChar

/-- nom's `multispace0` character class. -/
def isMultispace (c : Char) : Bool := c = ' ' || c = '\t' || c = '\r' || c = '\n'

/-- nom `multispace0`: always succeeds. -/
def multispace0 (input : List Char) : List Char := input.dropWhile isMultispace

/-- nom `tag`. -/
def tagP (pat : List Char) : P Unit := fun input =>
  if input.take pat.length = pat then some (input.drop pat.length, ()) else none

/-- nom `char`. -/
def charP (c : Char) : P Unit := fun input =>
  match input with
  | d :: rest => if d = c then some (rest, ()) else none
  | [] => none

/-- `sp` (lines 90-101): `space` before and after. -/
def spP (p : P α) : P α := fun input =>
  match p (space input) with
  | some (r, a) => some (space r, a)
  | none => none

/-- `ws` (lines 361-366): `multispace0` before and after. -/
def wsP (p : P α) : P α := fun input =>
  match p (multispace0 input) with
  | some (r, a) => some (multispace0 r, a)
  | none => none

/-- nom `alt` of two parsers. -/
def altP (p q : P α) : P α := fun input =>
  match p input with
  | some r => some r
  | none => q input

/-- `take_until("\n")`: succeeds only when a newline exists ahead, consuming
everything before it. -/
def takeUntilNewline : P Unit := fun input =>
  if input.contains '\n' then some (input.dropWhile (fun c => !(c = '\n')), ()) else none

/-- `comment` (lines 121-125): `//` or `#`, then everything up to (not
including) the next newline; fails when no newline follows. -/
def comment : P Unit := fun input =>
  match altP (tagP ['/', '/']) (tagP ['#']) input with
  | some (r, _) => takeUntilNewline r
  | none => none

/-- `space_then_comment` (lines 116-119). -/
def space_then_comment : P Unit := fun input => comment (space input)

/-- Generic fueled nom `many0` (with nom's infinite-loop guard: an element
that consumes nothing turns the whole `many0` into an error).  Every
successful element consumes input, so `input.length + 1` fuel always
suffices; `many0P` supplies it. -/
def many0F (p : P α) : Nat → List Char → Option (List Char × List α)
  | 0, _ => none
  | f + 1, input =>
    match p input with
    | none => some (input, [])
    | some (rem, a) =>
      if rem.length < input.length then
        match many0F p f rem with
        | none => none
        | some (rem2, as_) => some (rem2, a :: as_)
      else none
termination_by structural fuel => fuel

/-- nom `many0`. -/
def many0P (p : P α) : P (List α) := fun input => many0F p (input.length + 1) input

/-- nom `many1`: one occurrence, then `many0`. -/
def many1P (p : P α) : P (List α) := fun input =>
  match p input with
  | none => none
  | some (rem, a) =>
    match many0P p rem with
    | none => none
    | some (rem2, as_) => some (rem2, a :: as_)

/-- nom `newline`. -/
def newlineP : P Unit := charP '\n'

/-- `multiline_comment` (lines 107-114). -/
def multiline_comment : P Unit := fun input =>
  let r1 := (input.dropWhile (fun c => c = '\n'))   -- many0(newline)
  let r2 := space r1
  match comment r2 with
  | none => none
  | some (r3, _) =>
    match many0P (altP newlineP space_then_comment) r3 with
    | none => none
    | some (r4, _) => some (multispace0 r4, ())

/-- `possible_comment` (lines 103-105): `opt(multiline_comment)`. -/
def possible_comment (input : List Char) : List Char :=
  match multiline_comment input with
  | some (r, _) => r
  | none => input

/-- nom `digit1`: one or more ASCII digits. -/
def digit1 : P (List Char) := fun input =>
  let ds := input.takeWhile Char.isDigit
  if ds.isEmpty then none else some (input.drop ds.length, ds)

/-- The `opt(char('-'))` part of `recognize_number`: the consumed sign and
the rest. -/
def signPart (input : List Char) : List Char × List Char :=
  match input with
  | '-' :: rest => (['-'], rest)
  | _ => ([], input)

/-- The `opt(pair(char('.'), digit1))` part of `recognize_number`: atomic —
a dot with no digits after it contributes nothing. -/
def fracPart (r2 : List Char) : List Char × List Char :=
  match r2 with
  | '.' :: rest =>
    (match digit1 rest with
     | some (r, d2) => ('.' :: d2, r)
     | none => ([], r2))
  | _ => ([], r2)

/-- The `opt(tuple((one_of("eE"), opt(one_of("+-")), digit1)))` part of
`recognize_number`, likewise atomic. -/
def expPart (r3 : List Char) : List Char × List Char :=
  match r3 with
  | e :: rest =>
    if e = 'e' || e = 'E' then
      let p5 : List Char × List Char := match rest with
        | c :: rest2 => if c = '+' || c = '-' then ([c], rest2) else (([] : List Char), rest)
        | [] => ([], rest)
      match digit1 p5.2 with
      | some (r, d3) => (e :: (p5.1 ++ d3), r)
      | none => ([], r3)
    else ([], r3)
  | [] => ([], r3)

/-- `recognize_number` (lines 134-141): `recognize(tuple((opt(char('-')),
digit1, opt(pair(char('.'), digit1)), opt(tuple((one_of("eE"),
opt(one_of("+-")), digit1))))))` — `[-] digits [. digits] [eE [+-] digits]`.
`recognize` returns the consumed input slice, built here as the
concatenation of the consumed pieces. -/
def recognize_number : P (List Char) := fun input =>
  match digit1 (signPart input).2 with
  | none => none
  | some (r2, d1) =>
    some ((expPart (fracPart r2).2).2,
      (signPart input).1 ++ d1 ++ (fracPart r2).1 ++ (expPart (fracPart r2).2).1)

/-- Rust `str::parse::<i64>`: optional sign, one or more ASCII digits,
nothing else, value within `i64` range (checked arithmetic). -/
def rustParseI64 (s : List Char) : Option Int :=
  let (neg, digits) := match s with
    | '+' :: r => (false, r)
    | '-' :: r => (true, r)
    | r => (false, r)
  if digits.isEmpty || !(digits.all Char.isDigit) then none
  else
    let v : Nat := digits.foldl (fun acc d => acc * 10 + (d.toNat - 48)) 0
    if neg then
      if v ≤ 2 ^ 63 then some (-(Int.ofNat v)) else none
    else
      if v < 2 ^ 63 then some (Int.ofNat v) else none

/-- `integer` (lines 143-149). -/
def integer : P Int := fun input =>
  match recognize_number input with
  | none => none
  | some (rem, tok) =>
    match rustParseI64 tok with
    | some v => some (rem, v)
    | none => none

/-- One-or-more digit run, returning the rest (a component of the float
grammar check below). -/
def f64Digits (l : List Char) : Option (List Char) :=
  if (l.takeWhile Char.isDigit).isEmpty then none
  else some (l.drop (l.takeWhile Char.isDigit).length)

/-- Optional fraction part `.digits` of the float grammar check. -/
def f64Frac (l : List Char) : Option (List Char) :=
  match l with
  | '.' :: r => f64Digits r
  | _ => some l

/-- Exponent part `eE [+-] digits` of the float grammar check (only called
on a nonempty rest). -/
def f64Exp (l : List Char) : Option (List Char) :=
  match l with
  | [] => none
  | e :: r3 =>
    if e = 'e' || e = 'E' then
      match r3 with
      | c :: r4 => if c = '+' || c = '-' then f64Digits r4 else f64Digits r3
      | [] => none
    else none

/-- Rust `str::parse::<f64>` success test, on the sublanguage of tokens that
`recognize_number` can produce (`[-] digits [. digits] [exp]` — all of which
Rust's float grammar accepts, overflow rounding to infinity rather than
erroring).  `float` only ever applies it to such tokens
(`rustParseF64Ok_shape` proves it is `true` on every one of them). -/
def rustParseF64Ok (s : List Char) : Bool :=
  let s1 := match s with
    | c :: r => if c = '+' || c = '-' then r else c :: r
    | [] => []
  match f64Digits s1 with
  | none => false
  | some r1 =>
    match f64Frac r1 with
    | none => false
    | some r2 =>
      match r2 with
      | [] => true
      | _ =>
        match f64Exp r2 with
        | some [] => true
        | _ => false

/-- `float` (lines 151-157).  The parsed `f64` is represented by its token
text (see `HoconValue.Real`). -/
def float : P (List Char) := fun input =>
  match recognize_number input with
  | none => none
  | some (rem, tok) => if rustParseF64Ok tok then some (rem, tok) else none

/-- `boolean` (lines 159-161). -/
def boolean : P Bool := fun input =>
  match tagP "true".data input with
  | some (r, _) => some (r, true)
  | none =>
    match tagP "false".data input with
    | some (r, _) => some (r, false)
    | none => none

/-- `take_while_m_n` (lines 167-191): up to `max` characters satisfying
`cond`, at least `min` of them. -/
def take_while_m_n (min max : Nat) (cond : Char → Bool) : P (List Char) := fun input =>
  let m := (input.takeWhile cond).take max
  if min ≤ m.length then some (input.drop m.length, m) else none

/-- `char::is_ascii_hexdigit`. -/
def isHexChar (c : Char) : Bool :=
  c.isDigit || ('a' ≤ c && c ≤ 'f') || ('A' ≤ c && c ≤ 'F')

/-- `escaped_char` inside `string` (lines 194-203). -/
def escaped_char : P Unit := fun input =>
  match input with
  | c :: rest =>
    if !(c = '\\') && !(c = '"') && !(c = '\n') then some (rest, ())   -- none_of("\\\"\n")
    else if c = '\\' then
      match rest with
      | d :: rest2 =>
        if d = '"' || d = '\\' || d = '/' || d = 'b' || d = 'f' || d = 'n' || d = 'r'
            || d = 't' || d = 'u' then
          some (rest2, ())                                            -- pair('\\', one_of(..))
        else if d = 'u' then
          -- third alternative of the `alt` — unreachable because `one_of`
          -- above already accepts `u`, mirroring the source's alternative order
          (take_while_m_n 0 4 isHexChar rest2).map (fun p => (p.1, ()))
        else none
      | [] => none
    else none
  | [] => none

/-! ## The quoted-string parser and the char-level unescaper

`string` (lines 193-210) recognises the escaped content and hands it to
`unescape`.  Inside the parser embedding the unescaper is rendered at the
character level: `cScan` is the same scan as `uScan` with characters in
place of bytes.  The two renditions agree whenever the byte-level scan does
not panic and the material after each `\u` is ASCII (four bytes after `\u`
are then exactly four characters); the character level is total because
character boundaries cannot be violated. -/

/-- The single-character escape set of `PATTERNS`, as characters. -/
def isSimpleEscapeC (c : Char) : Bool :=
  c = '"' || c = '\\' || c = '/' || c = 'b' || c = 'f' || c = 'n' || c = 'r' || c = 't'

/-- `REPLACEMENTS`, as characters. -/
def replC (c : Char) : Char :=
  if c = 'b' then Char.ofNat 8
  else if c = 'f' then Char.ofNat 12
  else if c = 'n' then '\n'
  else if c = 'r' then Char.ofNat 13
  else if c = 't' then '\t'
  else c

/-- Character-level `uDecode`. -/
def uDecodeC (s0 s1 : Nat) (hex : List Char) : (Nat × Nat) × List Char :=
  match fromStrRadix16 (hex.map Char.toNat) with
  | some cp =>
    if isHigh cp then ((cp, s1), [])
    else if isLow cp then
      if isHigh s0 then ((s0, cp), [Char.ofNat (surrogatePair s0 cp)]) else ((s0, cp), [])
    else ((s0, cp), [Char.ofNat cp])
  | none => ((s0, s1), [])

/-- Character-level unescape scan (see the section comment). -/
def cScan (fuel : Nat) (s0 s1 : Nat) (l : List Char) : List Char :=
  match l, fuel with
  | [], _ => []
  | _ :: _, 0 => []            -- fuel exhausted; unreachable when `l.length ≤ fuel`
  | c :: rest, f + 1 =>
    if c = '\\' then
      match rest with
      | [] => ['\\']
      | c2 :: rest2 =>
        if isSimpleEscapeC c2 then replC c2 :: cScan f s0 s1 rest2
        else if c2 = 'u' then
          match rest2 with
          | h1 :: h2 :: h3 :: h4 :: tail =>
            let d := uDecodeC s0 s1 [h1, h2, h3, h4]
            d.2 ++ cScan f d.1.1 d.1.2 tail
          | _ => cScan f s0 s1 rest2
        else '\\' :: cScan f s0 s1 rest
    else c :: cScan f s0 s1 rest
termination_by structural fuel

/-- Character-level `unescape`. -/
def unescapeChars (s : List Char) : List Char := cScan s.length 0 0 s

/-- `string` (lines 193-210): a quote, `recognize(many0(escaped_char))`,
a closing quote; the value is the unescaped content. -/
def string : P (List Char) := fun input =>
  match charP '"' input with
  | none => none
  | some (r1, _) =>
    match many0P escaped_char r1 with
    | none => none
    | some (r2, _) =>
      let content := r1.take (r1.length - r2.length)
      match charP '"' r2 with
      | none => none
      | some (r3, _) => some (r3, unescapeChars content)

/-! ## Substitutions and values (`parser.rs`, lines 302-355)

`path_substitution`, `optional_path_substitution`, `single_value` and
`hocon_value` are mutually recursive through the path inside `${...}`; they
carry fuel, decremented at each entry.  Every recursion step first consumes
at least one character, so any fuel above the input length behaves like the
source. -/

mutual

/-- `path_substitution` (lines 302-307): note `alt((tag("${?"), tag("${")))` —
this parser accepts BOTH the optional and the required form and returns only
the inner value. -/
def path_substitution (fuel : Nat) : P HoconValue :=
  match fuel with
  | 0 => fun _ => none
  | f + 1 => fun input =>
    match altP (tagP "$\x7b?".data) (tagP "$\x7b".data) input with
    | none => none
    | some (r1, _) =>
      match hocon_value f r1 with
      | none => none
      | some (r2, val) =>
        match charP '}' r2 with
        | none => none
        | some (r3, _) => some (r3, val)

/-- `optional_path_substitution` (lines 309-314): only `${?`. -/
def optional_path_substitution (fuel : Nat) : P HoconValue :=
  match fuel with
  | 0 => fun _ => none
  | f + 1 => fun input =>
    match tagP "$\x7b?".data input with
    | none => none
    | some (r1, _) =>
      match hocon_value f r1 with
      | none => none
      | some (r2, val) =>
        match charP '}' r2 with
        | none => none
        | some (r3, _) => some (r3, val)

/-- `single_value` (lines 320-339), with the source's alternative order. -/
def single_value (fuel : Nat) : P HoconValue :=
  match fuel with
  | 0 => fun _ => none
  | f + 1 => fun input =>
    match multiline_string input with
    | some (r, s) => some (r, HoconValue.String s)
    | none =>
    match string input with
    | some (r, s) => some (r, HoconValue.String s)
    | none =>
    match integer input with
    | some (r, i) => some (r, HoconValue.Integer i)
    | none =>
    match float input with
    | some (r, x) => some (r, HoconValue.Real x)
    | none =>
    match boolean input with
    | some (r, b) => some (r, HoconValue.Boolean b)
    | none =>
    match optional_path_substitution f input with
    | some (r, p) => some (r, HoconValue.PathSubstitution p true none)
    | none =>
    match path_substitution f input with
    | some (r, p) => some (r, HoconValue.PathSubstitution p false none)
    | none =>
    match unquoted_string input with
    | some (r, s) => some (r, HoconValue.UnquotedString s)
    | none => none

/-- `hocon_value` (lines 341-355). -/
def hocon_value (fuel : Nat) : P HoconValue :=
  match fuel with
  | 0 => fun _ => none
  | f + 1 => fun input =>
    let i0 := possible_comment input
    match single_value f i0 with
    | none => none
    | some (r1, first) =>
      match many0P (single_value f) r1 with
      | none => none
      | some (r2, rest) =>
        if rest.isEmpty then some (r2, first)
        else some (r2, HoconValue.maybe_concat (first :: rest))

end

/-! ## Separators, closing, keys, includes (lines 368-434) -/

/-- `separators` (lines 368-389). -/
def separators : P Unit := fun input =>
  match spP multiline_comment input with
  | some (r, _) => some (multispace0 (possible_comment r), ())
  | none =>
  match spP (many1P newlineP) input with
  | some (r, _) => some (multispace0 (possible_comment r), ())
  | none =>
    match charP ',' (multispace0 input) with
    | none => none
    | some (r, _) => some (possible_comment (multispace0 r), ())

/-- `closing` (lines 391-396). -/
def closing (c : Char) : P Unit := fun input =>
  let i1 := match separators input with
    | some (r, _) => r
    | none => input
  charP c (multispace0 i1)

/-- `colon_or_equals` (lines 399-409). -/
def colon_or_equals : P Unit := fun input =>
  match altP (charP ':') (charP '=') (multispace0 input) with
  | some (r, _) => some (multispace0 r, ())
  | none => none

/-- `include_parser` in the source (lines 415-434): the `include ` keyword,
optional newlines, then `file("...")`, `url("...")` or a bare quoted string. -/
def include_directive : P IncludeDir := fun input =>
  match tagP "include ".data input with
  | none => none
  | some (r1, _) =>
    let r2 := multispace0 ((multispace0 r1).dropWhile (fun c => c = '\n'))  -- ws(many0(newline))
    let body : P IncludeDir := fun i =>
      match tagP "file(".data i with
      | some (i1, _) =>
        (match string i1 with
         | some (i2, name) =>
           (match tagP ")".data i2 with
            | some (i3, _) => some (i3, IncludeDir.file name)
            | none => none)
         | none => none)
      | none =>
      match tagP "url(".data i with
      | some (i1, _) =>
        (match string i1 with
         | some (i2, name) =>
           (match tagP ")".data i2 with
            | some (i3, _) => some (i3, IncludeDir.url name)
            | none => none)
         | none => none)
      | none =>
        match string i with
        | some (i1, name) => some (i1, IncludeDir.file name)
        | none => none
    spP body r2


/-! ## The stateful parser cluster (`parser.rs`, lines 40-72, 440-760)

`key_value` draws a fresh `uuid::Uuid::new_v4()` for every `+=` binding.
That draw is ambient randomness, not a function of the parser's input; it is
modelled by an id oracle `ids : Nat → List Char` together with a counter
threaded through every parser in evaluation order — each draw takes `ids n`
and advances the counter.  The parser type is

`PS α := Nat → List Char → Option (List Char × Nat × α)`

(`counter → input → (remaining, counter, value)`).  All cluster members
take fuel, decremented on entry; loops are specialised in-cluster members
(`kvList`/`kvListLoop` is nom's `separated_list0(separators, key_value)`
with its infinite-loop guard, `many0_hash`/`many0_array` are nom's `many0`
with theirs). -/

abbrev PS (α : Type) := Nat → List Char → Option (List Char × Nat × α)

/-- `ws(possible_comment)` — total. -/
def ws_possible_comment (input : List Char) : List Char :=
  multispace0 (possible_comment (multispace0 input))

mutual

/-- `key_value` (lines 440-570), first half: include, then a quoted string
key with `+=`, `:`/`=`, or a directly following object.  When the quoted key
parses but no separator form follows, control falls through to the unquoted
attempt (`key_value_unquoted`) on the same input, exactly as the source's
`if let` blocks do.  A `wrapper` failure after a recognised separator is
nom's `?` and fails the whole parser. -/
def key_value (cfg : HoconLoaderConfig) (ids : Nat → List Char) (fuel : Nat) :
    PS (Res Hash) :=
  match fuel with
  | 0 => fun _ _ => none
  | f + 1 => fun n input =>
    let i0 := ws_possible_comment input
    match spP include_directive i0 with
    | some (r, inc) => some (r, n, (cfg.includeVal inc).map (fun h => h.internal))
    | none =>
    match wsP string i0 with
    | none => key_value_unquoted cfg ids f n i0
    | some (r1, key) =>
      match wsP (tagP "+=".data) r1 with
      | some (r2, _) =>
        (match wrapper cfg ids f n r2 with
         | none => none
         | some (r3, n3, val) =>
           some (r3, n3 + 1, val.map (fun h =>
             (((HoconInternal.from_object h.internal).transform
                 (fun k v => (k, HoconValue.ToConcatToArray v k (ids n3)))).add_to_path
               [HoconValue.String key]).internal)))
      | none =>
      match colon_or_equals r1 with
      | some (r2, _) =>
        (match wrapper cfg ids f n r2 with
         | none => none
         | some (r3, n3, val) =>
           some (r3, n3, val.map (fun h =>
             ((HoconInternal.from_object h.internal).add_to_path
               [HoconValue.String key]).internal)))
      | none =>
      match hashes cfg ids f n r1 with
      | some (r2, n2, h) =>
        some (r2, n2, h.map (fun hs =>
          ((HoconInternal.from_object hs).add_to_path [HoconValue.String key]).internal))
      | none => key_value_unquoted cfg ids f n i0
termination_by structural fuel

/-- `key_value` (lines 511-568), second half: the unquoted-string key with
the same three separator forms. -/
def key_value_unquoted (cfg : HoconLoaderConfig) (ids : Nat → List Char) (fuel : Nat) :
    PS (Res Hash) :=
  match fuel with
  | 0 => fun _ _ => none
  | f + 1 => fun n input =>
    match wsP unquoted_string input with
    | none => none
    | some (r1, key) =>
      match wsP (tagP "+=".data) r1 with
      | some (r2, _) =>
        (match wrapper cfg ids f n r2 with
         | none => none
         | some (r3, n3, val) =>
           some (r3, n3 + 1, val.map (fun h =>
             (((HoconInternal.from_object h.internal).transform
                 (fun k v => (k, HoconValue.ToConcatToArray v k (ids n3)))).add_to_path
               [HoconValue.UnquotedString key]).internal)))
      | none =>
      match colon_or_equals r1 with
      | some (r2, _) =>
        (match wrapper cfg ids f n r2 with
         | none => none
         | some (r3, n3, val) =>
           some (r3, n3, val.map (fun h =>
             ((HoconInternal.from_object h.internal).add_to_path
               [HoconValue.UnquotedString key]).internal)))
      | none =>
      match hashes cfg ids f n r1 with
      | some (r2, n2, h) =>
        some (r2, n2, h.map (fun hs =>
          ((HoconInternal.from_object hs).add_to_path
            [HoconValue.UnquotedString key]).internal))
      | none => none
termination_by structural fuel

/-- `separated_hashlist` (lines 576-583). -/
def separated_hashlist (cfg : HoconLoaderConfig) (ids : Nat → List Char) (fuel : Nat) :
    PS (Res (List Hash)) :=
  match fuel with
  | 0 => fun _ _ => none
  | f + 1 => fun n input =>
    match kvList cfg ids f n input with
    | none => none
    | some (r, n2, parsed) => some (r, n2, extract_result parsed)
termination_by structural fuel

/-- nom `separated_list0(separators, key_value(config))`: first element
attempt; an immediate failure yields the empty list. -/
def kvList (cfg : HoconLoaderConfig) (ids : Nat → List Char) (fuel : Nat) :
    PS (List (Res Hash)) :=
  match fuel with
  | 0 => fun _ _ => none
  | f + 1 => fun n input =>
    match key_value cfg ids f n input with
    | none => some (input, n, [])
    | some (i1, n1, o) =>
      match kvListLoop cfg ids f n1 i1 with
      | none => none
      | some (r, n2, os) => some (r, n2, o :: os)
termination_by structural fuel

/-- The loop of `separated_list0(separators, key_value(config))`, including
nom's infinite-loop guard: a separator that consumes nothing is an error.
A failing separator or element ends the list, backtracking to before the
separator. -/
def kvListLoop (cfg : HoconLoaderConfig) (ids : Nat → List Char) (fuel : Nat) :
    PS (List (Res Hash)) :=
  match fuel with
  | 0 => fun _ _ => none
  | f + 1 => fun n input =>
    match separators input with
    | none => some (input, n, [])
    | some (i1, _) =>
      if i1.length = input.length then none
      else
        match key_value cfg ids f n i1 with
        | none => some (input, n, [])
        | some (i2, n2, o) =>
          match kvListLoop cfg ids f n2 i2 with
          | none => none
          | some (r, n3, os) => some (r, n3, o :: os)
termination_by structural fuel

/-- `hash` (lines 585-600). -/
def hash (cfg : HoconLoaderConfig) (ids : Nat → List Char) (fuel : Nat) :
    PS (Res Hash) :=
  match fuel with
  | 0 => fun _ _ => none
  | f + 1 => fun n input =>
    match charP '{' (space input) with
    | none => none
    | some (i2, _) =>
      match separated_hashlist cfg ids f n i2 with
      | none => none
      | some (i3, n3, hashlist) =>
        match closing '}' i3 with
        | none => none
        | some (i4, _) =>
          some (space i4, n3, hashlist.map (fun vec => vec.flatten))
termination_by structural fuel

/-- nom `many0(hash(config))` with its infinite-loop guard. -/
def many0_hash (cfg : HoconLoaderConfig) (ids : Nat → List Char) (fuel : Nat) :
    PS (List (Res Hash)) :=
  match fuel with
  | 0 => fun _ _ => none
  | f + 1 => fun n input =>
    match hash cfg ids f n input with
    | none => some (input, n, [])
    | some (rem, n2, a) =>
      if rem.length < input.length then
        match many0_hash cfg ids f n2 rem with
        | none => none
        | some (r2, n3, as_) => some (r2, n3, a :: as_)
      else none
termination_by structural fuel

/-- `hashes` (lines 602-641): an optional leading `path_substitution`
(which accepts both `${` and `${?`), one object, then any number of further
objects merged over it.  A leading substitution is wrapped as
`PathSubstitution { optional: false }` regardless of which form matched. -/
def hashes (cfg : HoconLoaderConfig) (ids : Nat → List Char) (fuel : Nat) :
    PS (Res Hash) :=
  match fuel with
  | 0 => fun _ _ => none
  | f + 1 => fun n input =>
    let sub := path_substitution f input
    let i1 := match sub with
      | some (r, _) => r
      | none => input
    let msubst : Option HoconValue := match sub with
      | some (_, v) => some v
      | none => none
    match hash cfg ids f n i1 with
    | none => none
    | some (i2, n2, first_hash) =>
      match many0_hash cfg ids f n2 i2 with
      | none => none
      | some (i3, n3, remaining_hashes) =>
        let result : Res Hash :=
          match msubst, remaining_hashes.isEmpty with
          | none, true => first_hash
          | none, false =>
            (match first_hash, extract_result remaining_hashes with
             | .ok values, .ok hs => .ok (values ++ hs.flatten)
             | .error e, _ => .error e
             | .ok _, .error e => .error e)
          | some subst, _ =>
            (match first_hash, extract_result remaining_hashes with
             | .ok fh, .ok hs =>
               .ok (([], HoconValue.PathSubstitution subst false none) :: (fh ++ hs.flatten))
             | .error e, _ => .error e
             | .ok _, .error e => .error e)
        some (i3, n3, result)
termination_by structural fuel

/-- `root_hash` (lines 643-658): an object without braces; must not start
with `{`. -/
def root_hash (cfg : HoconLoaderConfig) (ids : Nat → List Char) (fuel : Nat) :
    PS (Res Hash) :=
  match fuel with
  | 0 => fun _ _ => none
  | f + 1 => fun n input =>
    let i1 := space input
    match charP '{' i1 with
    | some _ => none                      -- not(char('{'))
    | none =>
      match separated_hashlist cfg ids f n i1 with
      | none => none
      | some (i2, n2, hashlist) =>
        some (space i2, n2, hashlist.map (fun vec => vec.flatten))

/-- nom `separated_list0(separators, wrapper(config))`. -/
def wrList (cfg : HoconLoaderConfig) (ids : Nat → List Char) (fuel : Nat) :
    PS (List (Res HoconInternal)) :=
  match fuel with
  | 0 => fun _ _ => none
  | f + 1 => fun n input =>
    match wrapper cfg ids f n input with
    | none => some (input, n, [])
    | some (i1, n1, o) =>
      match wrListLoop cfg ids f n1 i1 with
      | none => none
      | some (r, n2, os) => some (r, n2, o :: os)
termination_by structural fuel

/-- The loop of `separated_list0(separators, wrapper(config))`. -/
def wrListLoop (cfg : HoconLoaderConfig) (ids : Nat → List Char) (fuel : Nat) :
    PS (List (Res HoconInternal)) :=
  match fuel with
  | 0 => fun _ _ => none
  | f + 1 => fun n input =>
    match separators input with
    | none => some (input, n, [])
    | some (i1, _) =>
      if i1.length = input.length then none
      else
        match wrapper cfg ids f n i1 with
        | none => some (input, n, [])
        | some (i2, n2, o) =>
          match wrListLoop cfg ids f n2 i2 with
          | none => none
          | some (r, n3, os) => some (r, n3, o :: os)
termination_by structural fuel

/-- `array` (lines 664-675). -/
def array (cfg : HoconLoaderConfig) (ids : Nat → List Char) (fuel : Nat) :
    PS (Res (List HoconInternal)) :=
  match fuel with
  | 0 => fun _ _ => none
  | f + 1 => fun n input =>
    match spP (charP '[') input with
    | none => none
    | some (i1, _) =>
      match wrList cfg ids f n (multispace0 i1) with
      | none => none
      | some (i3, n3, items) =>
        match closing ']' i3 with
        | none => none
        | some (i4, _) => some (i4, n3, extract_result items)
termination_by structural fuel

/-- nom `many0(array(config))` with its infinite-loop guard. -/
def many0_array (cfg : HoconLoaderConfig) (ids : Nat → List Char) (fuel : Nat) :
    PS (List (Res (List HoconInternal))) :=
  match fuel with
  | 0 => fun _ _ => none
  | f + 1 => fun n input =>
    match array cfg ids f n input with
    | none => some (input, n, [])
    | some (rem, n2, a) =>
      if rem.length < input.length then
        match many0_array cfg ids f n2 rem with
        | none => none
        | some (r2, n3, as_) => some (r2, n3, a :: as_)
      else none
termination_by structural fuel

/-- `arrays` (lines 677-715): an optional leading `path_substitution` (both
forms), one array, then further arrays appended.  A leading substitution
becomes a `PathSubstitutionInParent` element (no optional flag at all). -/
def arrays (cfg : HoconLoaderConfig) (ids : Nat → List Char) (fuel : Nat) :
    PS (Res (List HoconInternal)) :=
  match fuel with
  | 0 => fun _ _ => none
  | f + 1 => fun n input =>
    let sub := path_substitution f input
    let i1 := match sub with
      | some (r, _) => r
      | none => input
    let msubst : Option HoconValue := match sub with
      | some (_, v) => some v
      | none => none
    match array cfg ids f n i1 with
    | none => none
    | some (i2, n2, first_array) =>
      match many0_array cfg ids f n2 i2 with
      | none => none
      | some (i3, n3, remaining_arrays) =>
        let result : Res (List HoconInternal) :=
          match msubst, remaining_arrays.isEmpty with
          | none, true => first_array
          | none, false =>
            (match first_array, extract_result remaining_arrays with
             | .ok values, .ok arrs => .ok (values ++ arrs.flatten)
             | .error e, _ => .error e
             | .ok _, .error e => .error e)
          | some subst, _ =>
            (match first_array, extract_result remaining_arrays with
             | .ok fa, .ok arrs =>
               .ok (HoconInternal.from_value (HoconValue.PathSubstitutionInParent subst)
                 :: (fa ++ arrs.flatten))
             | .error e, _ => .error e
             | .ok _, .error e => .error e)
        some (i3, n3, result)
termination_by structural fuel

/-- `wrapper` (lines 721-746). -/
def wrapper (cfg : HoconLoaderConfig) (ids : Nat → List Char) (fuel : Nat) :
    PS (Res HoconInternal) :=
  match fuel with
  | 0 => fun _ _ => none
  | f + 1 => fun n input =>
    let i0 := possible_comment input
    match hashes cfg ids f n i0 with
    | some (r, n2, h) => some (r, n2, h.map HoconInternal.from_object)
    | none =>
    match arrays cfg ids f n i0 with
    | some (r, n2, a) => some (r, n2, a.map HoconInternal.from_array)
    | none =>
    match include_directive i0 with
    | some (r, inc) => some (r, n, cfg.includeVal inc)
    | none =>
    match hocon_value f i0 with
    | some (r, v) => some (r, n, Except.ok (HoconInternal.from_value v))
    | none => none
termination_by structural fuel

/-- `root_include` (lines 752-760). -/
def root_include (cfg : HoconLoaderConfig) (ids : Nat → List Char) (fuel : Nat) :
    PS (Res HoconInternal) :=
  match fuel with
  | 0 => fun _ _ => none
  | f + 1 => fun n input =>
    match wsP include_directive input with
    | none => none
    | some (r1, inc) =>
      match root cfg ids f n r1 with
      | none => none
      | some (r2, n2, doc) =>
        some (r2, n2, doc.bind (fun d => d.add_include inc cfg))
termination_by structural fuel

/-- `root` (lines 40-72): the entry point. -/
def root (cfg : HoconLoaderConfig) (ids : Nat → List Char) (fuel : Nat) :
    PS (Res HoconInternal) :=
  match fuel with
  | 0 => fun _ _ => none
  | f + 1 => fun n input =>
    let i0 := possible_comment input
    match root_include cfg ids f n i0 with
    | some (r, n2, result) => some (possible_comment r, n2, result)
    | none =>
    match root_hash cfg ids f n i0 with
    | some (r, n2, h) => some (possible_comment r, n2, h.map HoconInternal.from_object)
    | none =>
    match hash cfg ids f n i0 with
    | some (r, n2, h) => some (possible_comment r, n2, h.map HoconInternal.from_object)
    | none =>
    match array cfg ids f n i0 with
    | some (r, n2, a) => some (possible_comment r, n2, a.map HoconInternal.from_array)
    | none => none
termination_by structural fuel

end


/-! ## The loader (`loader_config.rs`, lines 121-174) -/

/-- `remaining_only_whitespace` (lines 170-174): only `\n`, `\r`, `\0`
count — notably not space or tab. -/
def remaining_only_whitespace (remaining : List Char) : Bool :=
  remaining.all (fun c => c = '\n' || c = '\r' || c = Char.ofNat 0)

/-- The input preparation `format!("{}\n\0", s.replace('\r', "\n"))` applied
to both the JSON and the native-notation texts. -/
def prepInput (s : List Char) : List Char :=
  (s.map (fun c => if c = '\r' then '\n' else c)) ++ ['\n', Char.ofNat 0]

/-- The completeness check in the `and_then` closures (lines 135-145 and
153-163): a whitespace-only remainder accepts the parse; otherwise strict
mode raises `Error::Deserialization` with the fixed message, and non-strict
mode accepts the partial parse. -/
def completeness (strict : Bool) (remaining : List Char) (parsed : Res HoconInternal) :
    Res HoconInternal :=
  if remaining_only_whitespace remaining then parsed
  else if strict then
    .error (.Deserialization "file could not be parsed completely".data)
  else parsed

/-- The properties branch (lines 123-129): `java_properties::read` (the
external Properties Decoder oracle), `HoconInternal::from_properties`, and
`map_err(|_| Error::Parse)`. -/
def propsStep (cfg : HoconLoaderConfig) (p : List Char) : Res HoconInternal :=
  match cfg.propsDecode p with
  | some pairs => .ok (HoconInternal.from_properties pairs)
  | none => .error .Parse

/-- One `parser::root` run over a prepared text (lines 130-146/148-164):
a nom error becomes `Error::Parse`, then the completeness check.  The id
counter is threaded alongside. -/
def rootStep (cfg : HoconLoaderConfig) (ids : Nat → List Char) (fuel : Nat)
    (n : Nat) (text : List Char) : Res (HoconInternal × Nat) :=
  match root cfg ids fuel n (prepInput text) with
  | none => .error .Parse
  | some (remaining, n2, parsed) =>
    (completeness cfg.strict remaining parsed).map (fun d => (d, n2))

/-- The `FileRead` struct (`loader_config.rs`, lines 20-25). -/
structure FileRead where
  properties : Option (List Char)
  json : Option (List Char)
  hocon : Option (List Char)

/-- `parse_str_to_internal` (lines 121-168): start from the empty document
and `add` the decoded properties text, the parsed JSON text and the parsed
native-notation text in that order, skipping the absent ones; any step's
error aborts the whole call (`?`). -/
def parse_str_to_internal (cfg : HoconLoaderConfig) (ids : Nat → List Char)
    (fuel : Nat) (s : FileRead) : Res HoconInternal :=
  match (match s.properties with
         | none => Except.ok HoconInternal.empty
         | some p => (propsStep cfg p).map (fun d => HoconInternal.empty.add d)) with
  | .error e => .error e
  | .ok i1 =>
    match (match s.json with
           | none => Except.ok (i1, 0)
           | some j => (rootStep cfg ids fuel 0 j).map (fun (dn : HoconInternal × Nat) => (i1.add dn.1, dn.2))) with
    | .error e => .error e
    | .ok i2n =>
      match s.hocon with
      | none => .ok i2n.1
      | some h =>
        match rootStep cfg ids fuel i2n.2 h with
        | .error e => .error e
        | .ok dn => .ok (i2n.1.add dn.1)

/-! ## Example configurations for concrete runs -/

/-- A concrete configuration for counterexamples and witnesses: non-strict,
include oracles that always fail, no properties decoding. -/
def exampleConfig : HoconLoaderConfig :=
  { strict := false
    includeVal := fun _ => .error .Parse
    includeAdd := fun _ => .error .Parse
    propsDecode := fun _ => none }

/-- `exampleConfig` with strict mode on. -/
def exampleStrict : HoconLoaderConfig :=
  { exampleConfig with strict := true }

/-- `exampleConfig` with a fixed properties decoding. -/
def exampleProps : HoconLoaderConfig :=
  { exampleConfig with propsDecode := fun _ => some [(['k'], ['v'])] }

/-- An id oracle that always answers `i`. -/
def idsI : Nat → List Char := fun _ => ['i']

/-- An id oracle that always answers `j`. -/
def idsJ : Nat → List Char := fun _ => ['j']

/-! ## Claim C3: strict-mode incomplete consumption -/

/-- C3, counterexample: on the native-notation text `[1]` (which the root
parser accepts as an empty brace-less object consuming nothing), strict mode
classifies the non-whitespace remainder as `Error::Deserialization` with
message "file could not be parsed completely" — not `Error::Parse` as the
claim states (and `Deserialization ≠ Parse`). -/
theorem c3_counterexample :
    parse_str_to_internal exampleStrict idsI 12 ⟨none, none, some "[1]".data⟩ =
      .error (.Deserialization "file could not be parsed completely".data)
    ∧ (HoconError.Deserialization "file could not be parsed completely".data
        = HoconError.Parse → False) :=
  ⟨rfl, fun h => HoconError.noConfusion h⟩

/-- C3 as amended: when parsing succeeds but leaves a remainder that is not
whitespace-only, strict mode yields `Error::Deserialization` (message "file
could not be parsed completely"), and non-strict mode returns the parsed
prefix unchanged. -/
theorem c3_strict_completeness :
    (∀ (cfg : HoconLoaderConfig) (ids : Nat → List Char) (fuel : Nat)
       (t rem : List Char) (n2 : Nat) (parsed : Res HoconInternal),
      cfg.strict = true →
      root cfg ids fuel 0 (prepInput t) = some (rem, n2, parsed) →
      remaining_only_whitespace rem = false →
      parse_str_to_internal cfg ids fuel ⟨none, none, some t⟩ =
        .error (.Deserialization "file could not be parsed completely".data))
    ∧ (∀ (cfg : HoconLoaderConfig) (ids : Nat → List Char) (fuel : Nat)
       (t rem : List Char) (n2 : Nat) (parsed : Res HoconInternal),
      cfg.strict = false →
      root cfg ids fuel 0 (prepInput t) = some (rem, n2, parsed) →
      remaining_only_whitespace rem = false →
      parse_str_to_internal cfg ids fuel ⟨none, none, some t⟩ = parsed) := by
  constructor
  · intro cfg ids fuel t rem n2 parsed hstrict hroot hrem
    simp only [parse_str_to_internal, rootStep, hroot, completeness, hrem, hstrict,
      Bool.false_eq_true, if_false, if_true]
    rfl
  · intro cfg ids fuel t rem n2 parsed hstrict hroot hrem
    simp only [parse_str_to_internal, rootStep, hroot, completeness, hrem, hstrict,
      Bool.false_eq_true, if_false]
    cases parsed with
    | error e => rfl
    | ok d => simp [Except.map, HoconInternal.empty, HoconInternal.add]

/-- Witness for C3 (amended): the strict half at `[1]` yields the
deserialization error, and the non-strict half returns the parsed (empty)
document. -/
theorem c3_strict_completeness_witness :
    parse_str_to_internal exampleStrict idsI 12 ⟨none, none, some "[1]".data⟩ =
      .error (.Deserialization "file could not be parsed completely".data)
    ∧ parse_str_to_internal exampleConfig idsI 12 ⟨none, none, some "[1]".data⟩ =
      .ok ⟨[]⟩ :=
  ⟨c3_strict_completeness.1 exampleStrict idsI 12 "[1]".data
      ("[1]".data ++ ['\n', Char.ofNat 0]) 0 (.ok ⟨[]⟩) rfl rfl rfl,
    c3_strict_completeness.2 exampleConfig idsI 12 "[1]".data
      ("[1]".data ++ ['\n', Char.ofNat 0]) 0 (.ok ⟨[]⟩) rfl rfl rfl⟩

/-! ## Claim C4: multi-format merge order -/

/-- C4: `parse_str_to_internal` concatenates the documents of the three
formats in the fixed priority order properties, then JSON, then native
notation (so at colliding paths later formats override earlier ones, the
document order being the override tie-breaker), and any absent format is
simply omitted from the concatenation.  The hypotheses name, per present
format, the document its stage produces. -/
theorem c4_multi_format_order (cfg : HoconLoaderConfig) (ids : Nat → List Char)
    (fuel : Nat) (po jo ho : Option (List Char)) (cp cj ch : Hash) (n1 : Nat)
    (hp : match po with
          | none => cp = []
          | some p => ∃ pairs, cfg.propsDecode p = some pairs
              ∧ cp = (HoconInternal.from_properties pairs).internal)
    (hj : match jo with
          | none => cj = [] ∧ n1 = 0
          | some j => ∃ rem, root cfg ids fuel 0 (prepInput j) = some (rem, n1, .ok ⟨cj⟩)
              ∧ remaining_only_whitespace rem = true)
    (hh : match ho with
          | none => ch = []
          | some h => ∃ rem n2, root cfg ids fuel n1 (prepInput h) = some (rem, n2, .ok ⟨ch⟩)
              ∧ remaining_only_whitespace rem = true) :
    parse_str_to_internal cfg ids fuel ⟨po, jo, ho⟩ = .ok ⟨cp ++ cj ++ ch⟩ := by
  cases po with
  | none =>
    cases jo with
    | none =>
      cases ho with
      | none =>
        simp at hp hj hh
        simp [parse_str_to_internal, hp, hj.1, hh, HoconInternal.empty]
      | some h =>
        simp at hp hj
        obtain ⟨rem, n2, hroot, hws⟩ := hh
        rw [hj.2] at hroot
        simp [parse_str_to_internal, rootStep, hroot, completeness, hws, hp, hj.1,
          Except.map, HoconInternal.empty, HoconInternal.add]
    | some j =>
      simp at hp
      obtain ⟨rem, hroot, hws⟩ := hj
      cases ho with
      | none =>
        simp at hh
        simp [parse_str_to_internal, rootStep, hroot, completeness, hws, hp, hh,
          Except.map, HoconInternal.empty, HoconInternal.add]
      | some h =>
        obtain ⟨rem2, n2, hroot2, hws2⟩ := hh
        simp [parse_str_to_internal, rootStep, hroot, hroot2, completeness, hws, hws2, hp,
          Except.map, HoconInternal.empty, HoconInternal.add]
  | some p =>
    obtain ⟨pairs, hdec, hcp⟩ := hp
    cases jo with
    | none =>
      cases ho with
      | none =>
        simp at hj hh
        simp [parse_str_to_internal, propsStep, hdec, hcp, hj.1, hh,
          Except.map, HoconInternal.empty, HoconInternal.add]
      | some h =>
        simp at hj
        obtain ⟨rem, n2, hroot, hws⟩ := hh
        rw [hj.2] at hroot
        simp [parse_str_to_internal, propsStep, hdec, hcp, rootStep, hroot, completeness,
          hws, hj.1, Except.map, HoconInternal.empty, HoconInternal.add]
    | some j =>
      obtain ⟨rem, hroot, hws⟩ := hj
      cases ho with
      | none =>
        simp at hh
        simp [parse_str_to_internal, propsStep, hdec, hcp, rootStep, hroot, completeness,
          hws, hh, Except.map, HoconInternal.empty, HoconInternal.add]
      | some h =>
        obtain ⟨rem2, n2, hroot2, hws2⟩ := hh
        simp [parse_str_to_internal, propsStep, hdec, hcp, rootStep, hroot, hroot2,
          completeness, hws, hws2, Except.map, HoconInternal.empty, HoconInternal.add]

/-- Witness for C4 at a concrete all-three-present input: the properties
pair `k=v`, the JSON text `\x7b\x7d`, and the native text `a = 1`; the result is
the concatenation properties then JSON then native. -/
theorem c4_multi_format_order_witness :
    parse_str_to_internal exampleProps idsI 12
        ⟨some "k=v".data, some "\x7b\x7d".data, some "a = 1".data⟩ =
      .ok ⟨[([HoconValue.String ['k']], HoconValue.String ['v'])]
        ++ [] ++ [([HoconValue.UnquotedString ['a', ' ']], HoconValue.Integer 1)]⟩ :=
  c4_multi_format_order exampleProps idsI 12
    (some "k=v".data) (some "\x7b\x7d".data) (some "a = 1".data)
    [([HoconValue.String ['k']], HoconValue.String ['v'])] []
    [([HoconValue.UnquotedString ['a', ' ']], HoconValue.Integer 1)] 0
    ⟨[(['k'], ['v'])], rfl, rfl⟩
    ⟨"\x7b\x7d".data.drop 2 ++ ['\n', Char.ofNat 0], rfl, rfl⟩
    ⟨['\n', Char.ofNat 0], 0, rfl, rfl⟩


/-! ## Claim C5: the number grammar and integer-first interpretation -/

theorem digit1_spec {l r d : List Char} (h : digit1 l = some (r, d)) :
    d ≠ [] ∧ d.all Char.isDigit = true ∧ l = d ++ r := by
  unfold digit1 at h
  by_cases he : (l.takeWhile Char.isDigit).isEmpty
  · simp [he] at h
  · simp only [he, Bool.false_eq_true, if_false, Option.some.injEq, Prod.mk.injEq] at h
    obtain ⟨hr, hd⟩ := h
    subst hd
    subst hr
    refine ⟨by simpa [List.isEmpty_iff] using he, List.all_takeWhile, ?_⟩
    obtain ⟨t, ht⟩ := (List.takeWhile_prefix (l := l) (p := Char.isDigit))
    have h2 : l.drop (l.takeWhile Char.isDigit).length = t := by
      nth_rewrite 2 [← ht]
      rw [List.drop_left]
    rw [h2]
    exact ht.symm

theorem takeWhile_all_append (p : Char → Bool) (d x : List Char)
    (hd : d.all p = true)
    (hx : match x.head? with
          | some c => p c = false
          | none => True) :
    (d ++ x).takeWhile p = d ∧ (d ++ x).drop d.length = x := by
  refine ⟨?_, List.drop_left d x⟩
  induction d with
  | nil =>
    cases x with
    | nil => rfl
    | cons c cs => simp at hx; simp [List.takeWhile, hx]
  | cons a d' ih =>
    rw [List.all_cons, Bool.and_eq_true] at hd
    simp [List.takeWhile, hd.1, ih hd.2]

theorem signPart_spec (input : List Char) :
    input = (signPart input).1 ++ (signPart input).2
      ∧ ((signPart input).1 = [] ∨ (signPart input).1 = ['-']) := by
  unfold signPart
  split
  · simp
  · simp

theorem fracPart_spec (r2 : List Char) :
    r2 = (fracPart r2).1 ++ (fracPart r2).2
      ∧ ((fracPart r2).1 = []
          ∨ ∃ d2, (fracPart r2).1 = '.' :: d2 ∧ d2 ≠ [] ∧ d2.all Char.isDigit = true) := by
  unfold fracPart
  split
  next rest =>
    cases hd : digit1 rest with
    | none => simp
    | some pr =>
      obtain ⟨r, d2⟩ := pr
      obtain ⟨hne, hall, hsplit⟩ := digit1_spec hd
      constructor
      · simpa using hsplit
      · exact Or.inr ⟨d2, rfl, hne, hall⟩
  · simp

theorem expPart_spec (r3 : List Char) :
    r3 = (expPart r3).1 ++ (expPart r3).2
      ∧ ((expPart r3).1 = []
          ∨ ∃ e sg2 d3, (expPart r3).1 = e :: (sg2 ++ d3) ∧ (e = 'e' ∨ e = 'E')
              ∧ (sg2 = [] ∨ sg2 = ['+'] ∨ sg2 = ['-']) ∧ d3 ≠ []
              ∧ d3.all Char.isDigit = true) := by
  unfold expPart
  split
  next e rest =>
    by_cases he : (e = 'e' || e = 'E') = true
    · rw [if_pos he]
      rcases hrest : rest with _ | ⟨c, rest2⟩
      · simp [digit1]
      · by_cases hc : (c = '+' || c = '-') = true
        · simp only [hc, if_true]
          cases hd : digit1 rest2 with
          | none => simp
          | some pr =>
            obtain ⟨r, d3⟩ := pr
            obtain ⟨hne, hall, hsplit⟩ := digit1_spec hd
            constructor
            · simp [hsplit]
            · refine Or.inr ⟨e, [c], d3, by simp, by simpa using he, ?_, hne, hall⟩
              rcases (by simpa using hc : c = '+' ∨ c = '-') with rfl | rfl
              · exact Or.inr (Or.inl rfl)
              · exact Or.inr (Or.inr rfl)
        · simp only [hc, Bool.false_eq_true, if_false]
          cases hd : digit1 (c :: rest2) with
          | none => simp
          | some pr =>
            obtain ⟨r, d3⟩ := pr
            obtain ⟨hne, hall, hsplit⟩ := digit1_spec hd
            constructor
            · simp [hsplit]
            · exact Or.inr ⟨e, [], d3, by simp, by simpa using he, Or.inl rfl, hne, hall⟩
    · rw [if_neg he]
      simp
  · simp

/-- Structure of a recognised number token: optional minus sign, a digit
run, an optional fraction (dot plus digits), an optional exponent
(`e`/`E`, optional sign, digits); the token followed by the remainder is
the input. -/
theorem recognize_number_inv {input rest tok : List Char}
    (h : recognize_number input = some (rest, tok)) :
    ∃ sgn d1 frac ex,
      tok = sgn ++ d1 ++ frac ++ ex
      ∧ input = tok ++ rest
      ∧ (sgn = [] ∨ sgn = ['-'])
      ∧ d1 ≠ [] ∧ d1.all Char.isDigit = true
      ∧ (frac = [] ∨ ∃ d2, frac = '.' :: d2 ∧ d2 ≠ [] ∧ d2.all Char.isDigit = true)
      ∧ (ex = [] ∨ ∃ e sg2 d3, ex = e :: (sg2 ++ d3) ∧ (e = 'e' ∨ e = 'E')
          ∧ (sg2 = [] ∨ sg2 = ['+'] ∨ sg2 = ['-']) ∧ d3 ≠ []
          ∧ d3.all Char.isDigit = true) := by
  unfold recognize_number at h
  cases hd : digit1 (signPart input).2 with
  | none => rw [hd] at h; exact absurd h (by simp)
  | some pr =>
    obtain ⟨r2, d1⟩ := pr
    rw [hd] at h
    simp only [Option.some.injEq, Prod.mk.injEq] at h
    obtain ⟨hrest, htok⟩ := h
    obtain ⟨hd1ne, hd1all, hd1split⟩ := digit1_spec hd
    obtain ⟨hsgnsplit, hsgnshape⟩ := signPart_spec input
    obtain ⟨hfracsplit, hfracshape⟩ := fracPart_spec r2
    obtain ⟨hexsplit, hexshape⟩ := expPart_spec (fracPart r2).2
    refine ⟨(signPart input).1, d1, (fracPart r2).1, (expPart (fracPart r2).2).1,
      htok.symm, ?_, hsgnshape, hd1ne, hd1all, hfracshape, hexshape⟩
    rw [← htok, ← hrest]
    calc input = (signPart input).1 ++ (signPart input).2 := hsgnsplit
      _ = (signPart input).1 ++ (d1 ++ r2) := by rw [← hd1split]
      _ = (signPart input).1 ++ (d1 ++ ((fracPart r2).1 ++ (fracPart r2).2)) := by
            rw [← hfracsplit]
      _ = (signPart input).1 ++ (d1 ++ ((fracPart r2).1
            ++ ((expPart (fracPart r2).2).1 ++ (expPart (fracPart r2).2).2))) := by
            rw [← hexsplit]
      _ = (signPart input).1 ++ d1 ++ (fracPart r2).1 ++ (expPart (fracPart r2).2).1
            ++ (expPart (fracPart r2).2).2 := by simp


/-- `f64Digits` on a nonempty all-digit run followed by non-digit (or
empty) material consumes exactly the run. -/
theorem f64Digits_run (d x : List Char) (hne : d ≠ []) (hall : d.all Char.isDigit = true)
    (hx : match x.head? with
          | some c => Char.isDigit c = false
          | none => True) :
    f64Digits (d ++ x) = some x := by
  have htw := takeWhile_all_append Char.isDigit d x hall hx
  unfold f64Digits
  rw [htw.1, htw.2]
  simp [List.isEmpty_iff, hne]

/-- Every token `recognize_number` can produce is accepted by Rust's
`f64::from_str` (`rustParseF64Ok`). -/
theorem rustParseF64Ok_shape (sgn d1 frac ex : List Char)
    (hsgn : sgn = [] ∨ sgn = ['-'])
    (hd1ne : d1 ≠ []) (hd1 : d1.all Char.isDigit = true)
    (hfrac : frac = [] ∨ ∃ d2, frac = '.' :: d2 ∧ d2 ≠ [] ∧ d2.all Char.isDigit = true)
    (hex : ex = [] ∨ ∃ e sg2 d3, ex = e :: (sg2 ++ d3) ∧ (e = 'e' ∨ e = 'E')
        ∧ (sg2 = [] ∨ sg2 = ['+'] ∨ sg2 = ['-']) ∧ d3 ≠ []
        ∧ d3.all Char.isDigit = true) :
    rustParseF64Ok (sgn ++ d1 ++ frac ++ ex) = true := by
  have hexHeadNotDigit : (match ex.head? with
      | some c => Char.isDigit c = false
      | none => True) := by
    rcases hex with rfl | ⟨e, sg2, d3, rfl, he, _, _, _⟩
    · trivial
    · rcases he with rfl | rfl <;> simp
  have hheadfe : (match (frac ++ ex).head? with
      | some c => Char.isDigit c = false
      | none => True) := by
    rcases hfrac with rfl | ⟨d2, rfl, _, _⟩
    · simpa using hexHeadNotDigit
    · simp
  have hD : f64Digits (d1 ++ (frac ++ ex)) = some (frac ++ ex) :=
    f64Digits_run d1 (frac ++ ex) hd1ne hd1 hheadfe
  have hF : f64Frac (frac ++ ex) = some ex := by
    rcases hfrac with rfl | ⟨d2, rfl, hd2ne, hd2⟩
    · rcases hex with rfl | ⟨e, sg2, d3, rfl, he, _, _, _⟩
      · rfl
      · rcases he with rfl | rfl <;> rfl
    · show f64Frac ('.' :: (d2 ++ ex)) = some ex
      unfold f64Frac
      exact f64Digits_run d2 ex hd2ne hd2 hexHeadNotDigit
  have hE : ex ≠ [] → f64Exp ex = some [] := by
    intro hne
    rcases hex with rfl | ⟨e, sg2, d3, rfl, he, hsg2, hd3ne, hd3⟩
    · exact absurd rfl hne
    · have hee : (e = 'e' || e = 'E') = true := by rcases he with rfl | rfl <;> simp
      have hd3run : f64Digits d3 = some [] := by
        have := f64Digits_run d3 [] hd3ne hd3 trivial
        simpa using this
      unfold f64Exp
      simp only [hee, if_true]
      rcases hsg2 with rfl | rfl | rfl
      · obtain ⟨b, d3', rfl⟩ : ∃ b d3', d3 = b :: d3' := by
          cases d3 with
          | nil => exact absurd rfl hd3ne
          | cons b t => exact ⟨b, t, rfl⟩
        rw [List.all_cons, Bool.and_eq_true] at hd3
        have hb : (b = '+' || b = '-') = false := by
          have h1 : ¬(b = '+') := fun h => absurd (h ▸ hd3.1) (by decide)
          have h2 : ¬(b = '-') := fun h => absurd (h ▸ hd3.1) (by decide)
          simp [h1, h2]
        simp only [List.nil_append, hb, Bool.false_eq_true, if_false]
        exact hd3run
      · simp only [List.cons_append, List.nil_append,
          show (('+' : Char) = '+' || ('+' : Char) = '-') = true by decide, if_true]
        exact hd3run
      · simp only [List.cons_append, List.nil_append,
          show (('-' : Char) = '+' || ('-' : Char) = '-') = true by decide, if_true]
        exact hd3run
  -- assemble, splitting on the sign
  obtain ⟨a, d1', rfl⟩ : ∃ a d1', d1 = a :: d1' := by
    cases d1 with
    | nil => exact absurd rfl hd1ne
    | cons a t => exact ⟨a, t, rfl⟩
  have ha : a.isDigit = true := by
    rw [List.all_cons, Bool.and_eq_true] at hd1
    exact hd1.1
  have hnotsign : (a = '+' || a = '-') = false := by
    have h1 : ¬(a = '+') := fun h => absurd (h ▸ ha) (by decide)
    have h2 : ¬(a = '-') := fun h => absurd (h ▸ ha) (by decide)
    simp [h1, h2]
  have hTail : (match f64Frac (frac ++ ex) with
      | none => false
      | some r2 =>
        match r2 with
        | [] => true
        | _ =>
          match f64Exp r2 with
          | some [] => true
          | _ => false) = true := by
    rw [hF]
    cases hx : ex with
    | nil => rfl
    | cons e r =>
      have := hE (by simp [hx])
      rw [hx] at this
      simp only [this]
  rcases hsgn with rfl | rfl
  · have hDcons : f64Digits (a :: (d1' ++ (frac ++ ex))) = some (frac ++ ex) := by
      rw [show a :: (d1' ++ (frac ++ ex)) = (a :: d1') ++ (frac ++ ex) from rfl]
      exact hD
    have heq : ([] ++ (a :: d1') ++ frac ++ ex) = a :: (d1' ++ (frac ++ ex)) := by simp
    rw [heq]
    unfold rustParseF64Ok
    dsimp only
    simp only [hnotsign, Bool.false_eq_true, if_false, hDcons]
    exact hTail
  · have heq : ((['-'] ++ (a :: d1') ++ frac ++ ex) : List Char)
        = '-' :: ((a :: d1') ++ (frac ++ ex)) := by simp
    rw [heq]
    unfold rustParseF64Ok
    dsimp only
    rw [if_pos (by decide : ((('-' : Char) = '+' || ('-' : Char) = '-') = true))]
    rw [hD]
    exact hTail


theorem multiline_string_nonquote {c : Char} (l : List Char) (hc : ¬ c = '"') :
    multiline_string (c :: l) = none := by
  unfold multiline_string
  split
  next heq =>
    injection heq with h1 h2
    exact absurd h1 hc
  next => rfl

/-- C5: the numeric token grammar is an optional minus sign, a run of one
or more digits, an optional fraction (dot and digits) and an optional
exponent (`e`/`E`, optional sign, digits); `.33`, with no digit before the
dot, is not a number; and `single_value` first attempts the 64-bit signed
integer interpretation of the recognised token, producing `Integer` on
success and `Real` exactly when the integer interpretation fails. -/
theorem c5_number_grammar :
    recognize_number ".33".data = none
    ∧ ∀ (input rest tok : List Char) (f : Nat),
        recognize_number input = some (rest, tok) →
        tok ++ rest = input
        ∧ single_value (f + 1) input =
            (match rustParseI64 tok with
             | some v => some (rest, HoconValue.Integer v)
             | none => some (rest, HoconValue.Real tok)) := by
  refine ⟨rfl, ?_⟩
  intro input rest tok f hrec
  obtain ⟨sgn, d1, frac, ex, htok, hinput, hsgn, hd1ne, hd1, hfrac, hex⟩ :=
    recognize_number_inv hrec
  refine ⟨hinput.symm, ?_⟩
  obtain ⟨a, d1', rfl⟩ : ∃ a d1', d1 = a :: d1' := by
    cases d1 with
    | nil => exact absurd rfl hd1ne
    | cons a t => exact ⟨a, t, rfl⟩
  have ha : a.isDigit = true := by
    rw [List.all_cons, Bool.and_eq_true] at hd1
    exact hd1.1
  obtain ⟨c0, t0, hshape, hc0⟩ :
      ∃ c0 t0, input = c0 :: t0 ∧ (c0 = '-' ∨ c0.isDigit = true) := by
    rcases hsgn with rfl | rfl
    · exact ⟨a, d1' ++ frac ++ ex ++ rest, by simp [hinput, htok], Or.inr ha⟩
    · exact ⟨'-', (a :: d1') ++ frac ++ ex ++ rest, by simp [hinput, htok], Or.inl rfl⟩
  have hq : ¬ c0 = '"' := by
    rcases hc0 with rfl | hdig
    · decide
    · intro h
      exact absurd (h ▸ hdig) (by decide)
  have hok : rustParseF64Ok tok = true := by
    rw [htok]
    exact rustParseF64Ok_shape sgn (a :: d1') frac ex hsgn hd1ne hd1 hfrac hex
  rw [hshape] at hrec ⊢
  have hml : multiline_string (c0 :: t0) = none := multiline_string_nonquote _ hq
  have hstr : string (c0 :: t0) = none := by
    unfold string
    simp [charP, hq]
  have hint : integer (c0 :: t0) =
      (match rustParseI64 tok with
       | some v => some (rest, v)
       | none => none) := by
    unfold integer
    rw [hrec]
  have hfl : float (c0 :: t0) = some (rest, tok) := by
    unfold float
    rw [hrec]
    dsimp only
    rw [hok]
    simp
  cases hi : rustParseI64 tok with
  | some v =>
    rw [hi] at hint
    simp only [single_value, hml, hstr, hint]
  | none =>
    rw [hi] at hint
    simp only [single_value, hml, hstr, hint, hfl]

/-- Witness for C5 at the concrete input `1.5`: the token is `1.5`, the
remainder empty, and since `1.5` has no 64-bit integer interpretation the
value is a `Real`. -/
theorem c5_number_grammar_witness :
    "1.5".data ++ [] = "1.5".data
    ∧ single_value (4 + 1) "1.5".data =
        (match rustParseI64 "1.5".data with
         | some v => some (([] : List Char), HoconValue.Integer v)
         | none => some ([], HoconValue.Real "1.5".data)) :=
  c5_number_grammar.2 "1.5".data [] "1.5".data 4 rfl


/-- In `single_value` an input starting with `$` can only be a substitution
or an unquoted string: the string, number and boolean alternatives all fail
on a `$` head, leaving the two substitution forms (optional first) and the
unquoted-string fallback. -/
theorem single_value_dollar (f : Nat) (t : List Char) :
    single_value (f + 1) ('$' :: t) =
      (match optional_path_substitution f ('$' :: t) with
       | some (r, p) => some (r, HoconValue.PathSubstitution p true none)
       | none =>
         match path_substitution f ('$' :: t) with
         | some (r, p) => some (r, HoconValue.PathSubstitution p false none)
         | none =>
           match unquoted_string ('$' :: t) with
           | some (r, s) => some (r, HoconValue.UnquotedString s)
           | none => none) := rfl

/-- C2 counterexample: as the leading substitution of an object merge chain
(`hashes`, lines 602-641) the OPTIONAL form `$\x7b?a\x7d` is parsed by
`path_substitution` — which accepts both `$\x7b?` and `$\x7b` — and is then
wrapped with `optional: false`: the optional flag of `$\x7b?...\x7d` is lost
in this position, contradicting the claim that every occurrence of
`$\x7b?path\x7d` yields a substitution with the optional flag set. -/
theorem c2_counterexample :
    hashes exampleConfig idsI 10 0 "$\x7b?a\x7d \x7b\x7d".data =
      some ([], 0, Except.ok
        [([], HoconValue.PathSubstitution (HoconValue.UnquotedString ['a']) false none)]) :=
  rfl

/-- C2 (amended): in value position `single_value` gives `$\x7b?path\x7d`
the optional flag and `$\x7bpath\x7d` (when the optional form does not
apply) the non-optional flag; but a leading substitution of an object merge
chain is recorded with `optional: false` whichever form was written, and a
leading substitution of an array chain is recorded as
`PathSubstitutionInParent`, which carries no optional flag at all. -/
theorem c2_optional_substitution :
    (∀ (f : Nat) (t rest : List Char) (v : HoconValue),
        optional_path_substitution f ('$' :: t) = some (rest, v) →
        single_value (f + 1) ('$' :: t) =
          some (rest, HoconValue.PathSubstitution v true none))
    ∧ (∀ (f : Nat) (t rest : List Char) (v : HoconValue),
        path_substitution f ('$' :: t) = some (rest, v) →
        optional_path_substitution f ('$' :: t) = none →
        single_value (f + 1) ('$' :: t) =
          some (rest, HoconValue.PathSubstitution v false none))
    ∧ hashes exampleConfig idsJ 10 0 "$\x7b?b\x7d \x7b\x7d".data =
        some ([], 0, Except.ok
          [([], HoconValue.PathSubstitution (HoconValue.UnquotedString ['b']) false none)])
    ∧ arrays exampleConfig idsI 10 0 "$\x7b?a\x7d [1]".data =
        some ([], 0, Except.ok
          [⟨[([], HoconValue.PathSubstitutionInParent (HoconValue.UnquotedString ['a']))]⟩,
           ⟨[([], HoconValue.Integer 1)]⟩]) := by
  refine ⟨?_, ?_, ?_, ?_⟩
  · intro f t rest v h
    rw [single_value_dollar, h]
  · intro f t rest v h hnone
    rw [single_value_dollar, hnone, h]
  · rfl
  · rfl

/-- Witness for C2 at concrete inputs: `$\x7b?a\x7d` in value position is
optional, `$\x7ba\x7d` is not. -/
theorem c2_optional_substitution_witness :
    single_value 6 "$\x7b?a\x7d".data =
        some ([], HoconValue.PathSubstitution (HoconValue.UnquotedString ['a']) true none)
    ∧ single_value 6 "$\x7ba\x7d".data =
        some ([], HoconValue.PathSubstitution (HoconValue.UnquotedString ['a']) false none) :=
  ⟨c2_optional_substitution.1 5 "\x7b?a\x7d".data [] (HoconValue.UnquotedString ['a']) rfl,
   c2_optional_substitution.2.1 5 "\x7ba\x7d".data [] (HoconValue.UnquotedString ['a'])
     rfl rfl⟩


/-! ## Determinism up to operation ids (C8) -/

mutual

/-- Erase every `ToConcatToArray` item id in a value (the ids are the only
output of the `uuid` draws). -/
def eraseV : HoconValue → HoconValue
  | .Null => .Null
  | .Boolean b => .Boolean b
  | .Integer i => .Integer i
  | .Real l => .Real l
  | .String s => .String s
  | .UnquotedString s => .UnquotedString s
  | .Concat vs => .Concat (eraseVL vs)
  | .PathSubstitution t o orig => .PathSubstitution (eraseV t) o orig
  | .PathSubstitutionInParent t => .PathSubstitutionInParent (eraseV t)
  | .ToConcatToArray v p _ => .ToConcatToArray (eraseV v) (eraseVL p) []

/-- `eraseV` over a list of values. -/
def eraseVL : List HoconValue → List HoconValue
  | [] => []
  | v :: vs => eraseV v :: eraseVL vs

end

/-- Erase the item ids of one Document entry. -/
def eraseEntry (e : List HoconValue × HoconValue) : List HoconValue × HoconValue :=
  (e.1.map eraseV, eraseV e.2)

/-- Erase the item ids of an entry list. -/
def eraseHash (h : Hash) : Hash := h.map eraseEntry

/-- Erase the item ids of a Document. -/
def eraseI (d : HoconInternal) : HoconInternal := ⟨eraseHash d.internal⟩

/-- Normalise a stateful parser outcome by a result eraser, keeping the
remaining input and the draw counter. -/
def normP (g : α → α) (o : Option (List Char × Nat × α)) :
    Option (List Char × Nat × α) :=
  o.map (fun p => (p.1, p.2.1, g p.2.2))

/-- The item id of a `ToConcatToArray` value, if any. -/
def entryItemId : HoconValue → Option (List Char)
  | .ToConcatToArray _ _ i => some i
  | _ => none

/-- The item ids along the entries of a successful parse outcome. -/
def resultItemIds (r : Option (List Char × Nat × Res HoconInternal)) :
    List (Option (List Char)) :=
  match r with
  | some (_, _, .ok d) => d.internal.map (fun e => entryItemId e.2)
  | _ => []

theorem normP_elim {α : Type} (g : α → α)
    {o1 o2 : Option (List Char × Nat × α)} (h : normP g o1 = normP g o2) :
    (o1 = none ∧ o2 = none)
    ∨ ∃ r n a1 a2, o1 = some (r, n, a1) ∧ o2 = some (r, n, a2) ∧ g a1 = g a2 := by
  cases o1 with
  | none =>
    cases o2 with
    | none => exact Or.inl ⟨rfl, rfl⟩
    | some p => simp [normP] at h
  | some p =>
    cases o2 with
    | none => simp [normP] at h
    | some q =>
      simp only [normP, Option.map, Option.some.injEq, Prod.ext_iff] at h
      exact Or.inr ⟨p.1, p.2.1, p.2.2, q.2.2, by simp,
        by rw [h.1, h.2.1], h.2.2⟩

theorem eraseHash_append (a b : Hash) :
    eraseHash (a ++ b) = eraseHash a ++ eraseHash b :=
  List.map_append _ a b

theorem eraseHash_flatten (vs : List Hash) :
    eraseHash vs.flatten = (vs.map eraseHash).flatten := by
  rw [show eraseHash vs.flatten = List.map eraseEntry vs.flatten from rfl,
    List.map_flatten]
  exact rfl

theorem extract_result_map {α β : Type} (g : α → β) (xs : List (Res α)) :
    Except.map (List.map g) (extract_result xs)
      = extract_result (xs.map (Except.map g)) := by
  induction xs with
  | nil => rfl
  | cons x t ih =>
    cases x with
    | error e =>
      simp [extract_result, Except.map]
    | ok v =>
      simp only [extract_result, List.foldr, List.map] at *
      cases h : List.foldr _ (Except.ok []) t with
      | error e =>
        rw [h] at ih
        simp [Except.map] at ih ⊢
        rw [← ih]
      | ok vs =>
        rw [h] at ih
        simp [Except.map] at ih ⊢
        rw [← ih]


theorem eraseVL_map (l : List HoconValue) : eraseVL l = l.map eraseV := by
  induction l with
  | nil => rfl
  | cons v vs ih => simp [eraseVL, ih]

theorem map_eq_isEmpty {α β : Type} {f : α → β} {l1 l2 : List α}
    (h : l1.map f = l2.map f) : l1.isEmpty = l2.isEmpty := by
  cases l1 <;> cases l2 <;> simp_all

theorem erase_add_to_path (h : Hash) (kv : HoconValue) :
    eraseHash (((HoconInternal.from_object h).add_to_path [kv]).internal)
      = (eraseHash h).map (fun e => (eraseV kv :: e.1, e.2)) := by
  simp only [HoconInternal.from_object, HoconInternal.add_to_path, eraseHash,
    List.map_map]
  apply List.map_congr_left
  intro e _
  simp [eraseEntry]

theorem erase_append_op (h : Hash) (kv : HoconValue) (tok : List Char) :
    eraseHash ((((HoconInternal.from_object h).transform
        (fun k v => (k, HoconValue.ToConcatToArray v k tok))).add_to_path
        [kv]).internal)
      = (eraseHash h).map
          (fun e => (eraseV kv :: e.1, HoconValue.ToConcatToArray e.2 e.1 [])) := by
  simp only [HoconInternal.from_object, HoconInternal.transform,
    HoconInternal.add_to_path, eraseHash, List.map_map]
  apply List.map_congr_left
  intro e _
  simp [eraseEntry, eraseV, eraseVL_map]

theorem eraseI_from_array (xs : List HoconInternal) :
    eraseI (HoconInternal.from_array xs)
      = HoconInternal.from_array (xs.map eraseI) := by
  unfold eraseI HoconInternal.from_array
  congr 1
  rw [eraseHash_flatten, List.map_map, List.enum_map, List.map_map]
  congr 1
  apply List.map_congr_left
  intro p _
  obtain ⟨idx, d⟩ := p
  simp only [Function.comp_apply, Prod.map, id_eq, eraseHash, List.map_map]
  apply List.map_congr_left
  intro e _
  simp [eraseEntry, eraseV]

def eraseResHash : Res Hash → Res Hash := Except.map eraseHash
def eraseResHashL : Res (List Hash) → Res (List Hash) := Except.map (List.map eraseHash)
def eraseLResHash : List (Res Hash) → List (Res Hash) := List.map (Except.map eraseHash)
def eraseResI : Res HoconInternal → Res HoconInternal := Except.map eraseI
def eraseResLI : Res (List HoconInternal) → Res (List HoconInternal) :=
  Except.map (List.map eraseI)
def eraseLResI : List (Res HoconInternal) → List (Res HoconInternal) :=
  List.map (Except.map eraseI)
def eraseLResLI : List (Res (List HoconInternal)) → List (Res (List HoconInternal)) :=
  List.map (Except.map (List.map eraseI))

theorem exceptMap_elim {α β : Type} (g : α → β) {a1 a2 : Except HoconError α}
    (h : Except.map g a1 = Except.map g a2) :
    (∃ e, a1 = .error e ∧ a2 = .error e) ∨
    ∃ d1 d2, a1 = .ok d1 ∧ a2 = .ok d2 ∧ g d1 = g d2 := by
  cases a1 with
  | error e =>
    cases a2 with
    | error e2 =>
      simp only [Except.map, Except.error.injEq] at h
      exact Or.inl ⟨e, rfl, by rw [h]⟩
    | ok d => simp [Except.map] at h
  | ok d1 =>
    cases a2 with
    | error e => simp [Except.map] at h
    | ok d2 =>
      simp only [Except.map, Except.ok.injEq] at h
      exact Or.inr ⟨d1, d2, rfl, rfl, h⟩

theorem ids_invariance (cfg : HoconLoaderConfig) (ids1 ids2 : Nat → List Char) :
    ∀ fuel : Nat,
      (∀ n input, normP eraseResHash (key_value cfg ids1 fuel n input)
          = normP eraseResHash (key_value cfg ids2 fuel n input))
      ∧ (∀ n input, normP eraseResHash (key_value_unquoted cfg ids1 fuel n input)
          = normP eraseResHash (key_value_unquoted cfg ids2 fuel n input))
      ∧ (∀ n input, normP eraseResHashL (separated_hashlist cfg ids1 fuel n input)
          = normP eraseResHashL (separated_hashlist cfg ids2 fuel n input))
      ∧ (∀ n input, normP eraseLResHash (kvList cfg ids1 fuel n input)
          = normP eraseLResHash (kvList cfg ids2 fuel n input))
      ∧ (∀ n input, normP eraseLResHash (kvListLoop cfg ids1 fuel n input)
          = normP eraseLResHash (kvListLoop cfg ids2 fuel n input))
      ∧ (∀ n input, normP eraseResHash (hash cfg ids1 fuel n input)
          = normP eraseResHash (hash cfg ids2 fuel n input))
      ∧ (∀ n input, normP eraseLResHash (many0_hash cfg ids1 fuel n input)
          = normP eraseLResHash (many0_hash cfg ids2 fuel n input))
      ∧ (∀ n input, normP eraseResHash (hashes cfg ids1 fuel n input)
          = normP eraseResHash (hashes cfg ids2 fuel n input))
      ∧ (∀ n input, normP eraseResHash (root_hash cfg ids1 fuel n input)
          = normP eraseResHash (root_hash cfg ids2 fuel n input))
      ∧ (∀ n input, normP eraseLResI (wrList cfg ids1 fuel n input)
          = normP eraseLResI (wrList cfg ids2 fuel n input))
      ∧ (∀ n input, normP eraseLResI (wrListLoop cfg ids1 fuel n input)
          = normP eraseLResI (wrListLoop cfg ids2 fuel n input))
      ∧ (∀ n input, normP eraseResLI (array cfg ids1 fuel n input)
          = normP eraseResLI (array cfg ids2 fuel n input))
      ∧ (∀ n input, normP eraseLResLI (many0_array cfg ids1 fuel n input)
          = normP eraseLResLI (many0_array cfg ids2 fuel n input))
      ∧ (∀ n input, normP eraseResLI (arrays cfg ids1 fuel n input)
          = normP eraseResLI (arrays cfg ids2 fuel n input))
      ∧ (∀ n input, normP eraseResI (wrapper cfg ids1 fuel n input)
          = normP eraseResI (wrapper cfg ids2 fuel n input))
      ∧ (∀ n input, normP eraseResI (root_include cfg ids1 fuel n input)
          = normP eraseResI (root_include cfg ids2 fuel n input))
      ∧ (∀ n input, normP eraseResI (root cfg ids1 fuel n input)
          = normP eraseResI (root cfg ids2 fuel n input)) := by
  intro fuel
  induction fuel with
  | zero =>
    exact ⟨fun _ _ => rfl, fun _ _ => rfl, fun _ _ => rfl, fun _ _ => rfl,
      fun _ _ => rfl, fun _ _ => rfl, fun _ _ => rfl, fun _ _ => rfl,
      fun _ _ => rfl, fun _ _ => rfl, fun _ _ => rfl, fun _ _ => rfl,
      fun _ _ => rfl, fun _ _ => rfl, fun _ _ => rfl, fun _ _ => rfl,
      fun _ _ => rfl⟩
  | succ f ih =>
    obtain ⟨ihKV, ihKVU, ihSHL, ihKVL, ihKVLL, ihHash, ihMH, ihHashes, ihRH,
      ihWL, ihWLL, ihArr, ihMA, ihArrays, ihWrap, ihRI, ihRoot⟩ := ih
    refine ⟨?_, ?_, ?_, ?_, ?_, ?_, ?_, ?_, ?_, ?_, ?_, ?_, ?_, ?_, ?_, ?_, ?_⟩
    · intro n input
      simp only [key_value]
      cases hinc : spP include_directive (ws_possible_comment input) with
      | some p => rfl
      | none =>
        cases hstr : wsP string (ws_possible_comment input) with
        | none =>
          dsimp only
          exact ihKVU n (ws_possible_comment input)
        | some p =>
          obtain ⟨r1, key⟩ := p
          dsimp only
          cases htag : wsP (tagP "+=".data) r1 with
          | some q =>
            obtain ⟨r2, u⟩ := q
            dsimp only
            rcases normP_elim _ (ihWrap n r2) with ⟨h1, h2⟩ | ⟨r3, m, a1, a2, h1, h2, hg⟩
            · rw [h1, h2]
            · simp only [h1, h2]
              rcases exceptMap_elim eraseI hg with ⟨e, rfl, rfl⟩ | ⟨d1, d2, rfl, rfl, hv⟩
              · rfl
              · have hInt : eraseHash d1.internal = eraseHash d2.internal :=
                  congrArg HoconInternal.internal hv
                simp only [normP, Option.map, Except.map, eraseResHash]
                rw [erase_append_op, erase_append_op, hInt]
          | none =>
            cases hce : colon_or_equals r1 with
            | some q =>
              obtain ⟨r2, u⟩ := q
              dsimp only
              rcases normP_elim _ (ihWrap n r2) with ⟨h1, h2⟩ | ⟨r3, m, a1, a2, h1, h2, hg⟩
              · rw [h1, h2]
              · simp only [h1, h2]
                rcases exceptMap_elim eraseI hg with ⟨e, rfl, rfl⟩ | ⟨d1, d2, rfl, rfl, hv⟩
                · rfl
                · have hInt : eraseHash d1.internal = eraseHash d2.internal :=
                    congrArg HoconInternal.internal hv
                  simp only [normP, Option.map, Except.map, eraseResHash]
                  rw [erase_add_to_path, erase_add_to_path, hInt]
            | none =>
              rcases normP_elim _ (ihHashes n r1) with ⟨h1, h2⟩ | ⟨r2, m, a1, a2, h1, h2, hg⟩
              · rw [h1, h2]
                exact ihKVU n (ws_possible_comment input)
              · simp only [h1, h2]
                rcases exceptMap_elim eraseHash hg with ⟨e, rfl, rfl⟩ | ⟨hs1, hs2, rfl, rfl, hv⟩
                · rfl
                · simp only [normP, Option.map, Except.map, eraseResHash]
                  rw [erase_add_to_path, erase_add_to_path, hv]
    · intro n input
      simp only [key_value_unquoted]
      cases hstr : wsP unquoted_string input with
      | none => rfl
      | some p =>
        obtain ⟨r1, key⟩ := p
        dsimp only
        cases htag : wsP (tagP "+=".data) r1 with
        | some q =>
          obtain ⟨r2, u⟩ := q
          dsimp only
          rcases normP_elim _ (ihWrap n r2) with ⟨h1, h2⟩ | ⟨r3, m, a1, a2, h1, h2, hg⟩
          · rw [h1, h2]
          · simp only [h1, h2]
            rcases exceptMap_elim eraseI hg with ⟨e, rfl, rfl⟩ | ⟨d1, d2, rfl, rfl, hv⟩
            · rfl
            · have hInt : eraseHash d1.internal = eraseHash d2.internal :=
                congrArg HoconInternal.internal hv
              simp only [normP, Option.map, Except.map, eraseResHash]
              rw [erase_append_op, erase_append_op, hInt]
        | none =>
          cases hce : colon_or_equals r1 with
          | some q =>
            obtain ⟨r2, u⟩ := q
            dsimp only
            rcases normP_elim _ (ihWrap n r2) with ⟨h1, h2⟩ | ⟨r3, m, a1, a2, h1, h2, hg⟩
            · rw [h1, h2]
            · simp only [h1, h2]
              rcases exceptMap_elim eraseI hg with ⟨e, rfl, rfl⟩ | ⟨d1, d2, rfl, rfl, hv⟩
              · rfl
              · have hInt : eraseHash d1.internal = eraseHash d2.internal :=
                  congrArg HoconInternal.internal hv
                simp only [normP, Option.map, Except.map, eraseResHash]
                rw [erase_add_to_path, erase_add_to_path, hInt]
          | none =>
            rcases normP_elim _ (ihHashes n r1) with ⟨h1, h2⟩ | ⟨r2, m, a1, a2, h1, h2, hg⟩
            · rw [h1, h2]
            · simp only [h1, h2]
              rcases exceptMap_elim eraseHash hg with ⟨e, rfl, rfl⟩ | ⟨hs1, hs2, rfl, rfl, hv⟩
              · rfl
              · simp only [normP, Option.map, Except.map, eraseResHash]
                rw [erase_add_to_path, erase_add_to_path, hv]
    · intro n input
      simp only [separated_hashlist]
      rcases normP_elim _ (ihKVL n input) with ⟨h1, h2⟩ | ⟨r, m, a1, a2, h1, h2, hg⟩
      · rw [h1, h2]
      · simp only [h1, h2]
        have hc : eraseResHashL (extract_result a1) = eraseResHashL (extract_result a2) := by
          show Except.map _ _ = Except.map _ _
          rw [extract_result_map, extract_result_map]
          exact congrArg extract_result hg
        simp only [normP, Option.map, hc]
    · intro n input
      simp only [kvList]
      rcases normP_elim _ (ihKV n input) with ⟨h1, h2⟩ | ⟨r, m, a1, a2, h1, h2, hg⟩
      · rw [h1, h2]
      · simp only [h1, h2]
        rcases normP_elim _ (ihKVLL m r) with ⟨g1, g2⟩ | ⟨r2, m2, b1, b2, g1, g2, hg2⟩
        · rw [g1, g2]
        · simp only [g1, g2]
          have hc : eraseLResHash (a1 :: b1) = eraseLResHash (a2 :: b2) := by
            show List.map _ _ = List.map _ _
            simp only [List.map_cons]
            rw [show Except.map eraseHash a1 = Except.map eraseHash a2 from hg,
              show List.map (Except.map eraseHash) b1
                = List.map (Except.map eraseHash) b2 from hg2]
          simp only [normP, Option.map, hc]
    · intro n input
      simp only [kvListLoop]
      cases hsep : separators input with
      | none => rfl
      | some p =>
        obtain ⟨i1, u⟩ := p
        dsimp only
        by_cases hL : i1.length = input.length
        · simp only [if_pos hL]
        · simp only [if_neg hL]
          rcases normP_elim _ (ihKV n i1) with ⟨h1, h2⟩ | ⟨r, m, a1, a2, h1, h2, hg⟩
          · rw [h1, h2]
          · simp only [h1, h2]
            rcases normP_elim _ (ihKVLL m r) with ⟨g1, g2⟩ | ⟨r2, m2, b1, b2, g1, g2, hg2⟩
            · rw [g1, g2]
            · simp only [g1, g2]
              have hc : eraseLResHash (a1 :: b1) = eraseLResHash (a2 :: b2) := by
                show List.map _ _ = List.map _ _
                simp only [List.map_cons]
                rw [show Except.map eraseHash a1 = Except.map eraseHash a2 from hg,
                  show List.map (Except.map eraseHash) b1
                    = List.map (Except.map eraseHash) b2 from hg2]
              simp only [normP, Option.map, hc]
    · intro n input
      simp only [hash]
      cases hc : charP '{' (space input) with
      | none => rfl
      | some p =>
        obtain ⟨i2, u⟩ := p
        dsimp only
        rcases normP_elim _ (ihSHL n i2) with ⟨h1, h2⟩ | ⟨r, m, a1, a2, h1, h2, hg⟩
        · rw [h1, h2]
        · simp only [h1, h2]
          cases hcl : closing '}' r with
          | none => rfl
          | some q =>
            obtain ⟨i4, u2⟩ := q
            rcases exceptMap_elim (List.map eraseHash) hg with ⟨e, rfl, rfl⟩ |
              ⟨v1, v2, rfl, rfl, hv⟩
            · rfl
            · simp only [normP, Option.map, Except.map, eraseResHash]
              rw [eraseHash_flatten, eraseHash_flatten, hv]
    · intro n input
      simp only [many0_hash]
      rcases normP_elim _ (ihHash n input) with ⟨h1, h2⟩ | ⟨r, m, a1, a2, h1, h2, hg⟩
      · rw [h1, h2]
      · simp only [h1, h2]
        by_cases hlt : r.length < input.length
        · simp only [if_pos hlt]
          rcases normP_elim _ (ihMH m r) with ⟨g1, g2⟩ | ⟨r2, m2, b1, b2, g1, g2, hg2⟩
          · rw [g1, g2]
          · simp only [g1, g2]
            have hc : eraseLResHash (a1 :: b1) = eraseLResHash (a2 :: b2) := by
              show List.map _ _ = List.map _ _
              simp only [List.map_cons]
              rw [show Except.map eraseHash a1 = Except.map eraseHash a2 from hg,
                show List.map (Except.map eraseHash) b1
                  = List.map (Except.map eraseHash) b2 from hg2]
            simp only [normP, Option.map, hc]
        · simp only [if_neg hlt]
    · intro n input
      simp only [hashes]
      cases hsub : path_substitution f input with
      | none =>
        dsimp only
        rcases normP_elim _ (ihHash n input) with ⟨h1, h2⟩ | ⟨r, m, a1, a2, h1, h2, hg⟩
        · rw [h1, h2]
        · simp only [h1, h2]
          rcases normP_elim _ (ihMH m r) with ⟨g1, g2⟩ | ⟨r2, m2, b1, b2, g1, g2, hg2⟩
          · rw [g1, g2]
          · simp only [g1, g2]
            have hE : b1.isEmpty = b2.isEmpty := map_eq_isEmpty hg2
            cases hb1 : b1.isEmpty with
            | true =>
              have hb2 : b2.isEmpty = true := by rw [← hE, hb1]
              simp only [hb1, hb2, normP, Option.map]
              rw [show eraseResHash a1 = eraseResHash a2 from hg]
            | false =>
              have hb2 : b2.isEmpty = false := by rw [← hE, hb1]
              simp only [hb1, hb2]
              have hx : Except.map (List.map eraseHash) (extract_result b1)
                  = Except.map (List.map eraseHash) (extract_result b2) := by
                rw [extract_result_map, extract_result_map]
                exact congrArg extract_result hg2
              rcases exceptMap_elim eraseHash hg with ⟨e, rfl, rfl⟩ | ⟨v1, v2, rfl, rfl, hv⟩
              · rfl
              · rcases exceptMap_elim (List.map eraseHash) hx with ⟨e, hx1, hx2⟩ |
                  ⟨l1, l2, hx1, hx2, hl⟩
                · rw [hx1, hx2]
                · rw [hx1, hx2]
                  simp only [normP, Option.map, Except.map, eraseResHash]
                  rw [eraseHash_append, eraseHash_append, eraseHash_flatten,
                    eraseHash_flatten, hv, hl]
      | some p =>
        obtain ⟨rs, vs⟩ := p
        dsimp only
        rcases normP_elim _ (ihHash n rs) with ⟨h1, h2⟩ | ⟨r, m, a1, a2, h1, h2, hg⟩
        · rw [h1, h2]
        · simp only [h1, h2]
          rcases normP_elim _ (ihMH m r) with ⟨g1, g2⟩ | ⟨r2, m2, b1, b2, g1, g2, hg2⟩
          · rw [g1, g2]
          · simp only [g1, g2]
            have hx : Except.map (List.map eraseHash) (extract_result b1)
                = Except.map (List.map eraseHash) (extract_result b2) := by
              rw [extract_result_map, extract_result_map]
              exact congrArg extract_result hg2
            rcases exceptMap_elim eraseHash hg with ⟨e, rfl, rfl⟩ | ⟨v1, v2, rfl, rfl, hv⟩
            · rfl
            · rcases exceptMap_elim (List.map eraseHash) hx with ⟨e, hx1, hx2⟩ |
                ⟨l1, l2, hx1, hx2, hl⟩
              · rw [hx1, hx2]
              · rw [hx1, hx2]
                have ht : eraseHash (v1 ++ l1.flatten) = eraseHash (v2 ++ l2.flatten) := by
                  rw [eraseHash_append, eraseHash_append, eraseHash_flatten,
                    eraseHash_flatten, hv, hl]
                simp only [normP, Option.map, Except.map, eraseResHash, eraseHash,
                  List.map_cons]
                rw [show List.map eraseEntry (v1 ++ l1.flatten)
                  = List.map eraseEntry (v2 ++ l2.flatten) from ht]
    · intro n input
      simp only [root_hash]
      cases hc : charP '{' (space input) with
      | some p => rfl
      | none =>
        dsimp only
        rcases normP_elim _ (ihSHL n (space input)) with ⟨h1, h2⟩ | ⟨r, m, a1, a2, h1, h2, hg⟩
        · rw [h1, h2]
        · simp only [h1, h2]
          rcases exceptMap_elim (List.map eraseHash) hg with ⟨e, rfl, rfl⟩ |
            ⟨v1, v2, rfl, rfl, hv⟩
          · rfl
          · simp only [normP, Option.map, Except.map, eraseResHash]
            rw [eraseHash_flatten, eraseHash_flatten, hv]
    · intro n input
      simp only [wrList]
      rcases normP_elim _ (ihWrap n input) with ⟨h1, h2⟩ | ⟨r, m, a1, a2, h1, h2, hg⟩
      · rw [h1, h2]
      · simp only [h1, h2]
        rcases normP_elim _ (ihWLL m r) with ⟨g1, g2⟩ | ⟨r2, m2, b1, b2, g1, g2, hg2⟩
        · rw [g1, g2]
        · simp only [g1, g2]
          have hc : eraseLResI (a1 :: b1) = eraseLResI (a2 :: b2) := by
            show List.map _ _ = List.map _ _
            simp only [List.map_cons]
            rw [show Except.map eraseI a1 = Except.map eraseI a2 from hg,
              show List.map (Except.map eraseI) b1
                = List.map (Except.map eraseI) b2 from hg2]
          simp only [normP, Option.map, hc]
    · intro n input
      simp only [wrListLoop]
      cases hsep : separators input with
      | none => rfl
      | some p =>
        obtain ⟨i1, u⟩ := p
        dsimp only
        by_cases hL : i1.length = input.length
        · simp only [if_pos hL]
        · simp only [if_neg hL]
          rcases normP_elim _ (ihWrap n i1) with ⟨h1, h2⟩ | ⟨r, m, a1, a2, h1, h2, hg⟩
          · rw [h1, h2]
          · simp only [h1, h2]
            rcases normP_elim _ (ihWLL m r) with ⟨g1, g2⟩ | ⟨r2, m2, b1, b2, g1, g2, hg2⟩
            · rw [g1, g2]
            · simp only [g1, g2]
              have hc : eraseLResI (a1 :: b1) = eraseLResI (a2 :: b2) := by
                show List.map _ _ = List.map _ _
                simp only [List.map_cons]
                rw [show Except.map eraseI a1 = Except.map eraseI a2 from hg,
                  show List.map (Except.map eraseI) b1
                    = List.map (Except.map eraseI) b2 from hg2]
              simp only [normP, Option.map, hc]
    · intro n input
      simp only [array]
      cases hop : spP (charP '[') input with
      | none => rfl
      | some p =>
        obtain ⟨i1, u⟩ := p
        dsimp only
        rcases normP_elim _ (ihWL n (multispace0 i1)) with ⟨h1, h2⟩ | ⟨r, m, a1, a2, h1, h2, hg⟩
        · rw [h1, h2]
        · simp only [h1, h2]
          cases hcl : closing ']' r with
          | none => rfl
          | some q =>
            obtain ⟨i4, u2⟩ := q
            have hc : eraseResLI (extract_result a1) = eraseResLI (extract_result a2) := by
              show Except.map _ _ = Except.map _ _
              rw [extract_result_map, extract_result_map]
              exact congrArg extract_result hg
            simp only [normP, Option.map, hc]
    · intro n input
      simp only [many0_array]
      rcases normP_elim _ (ihArr n input) with ⟨h1, h2⟩ | ⟨r, m, a1, a2, h1, h2, hg⟩
      · rw [h1, h2]
      · simp only [h1, h2]
        by_cases hlt : r.length < input.length
        · simp only [if_pos hlt]
          rcases normP_elim _ (ihMA m r) with ⟨g1, g2⟩ | ⟨r2, m2, b1, b2, g1, g2, hg2⟩
          · rw [g1, g2]
          · simp only [g1, g2]
            have hc : eraseLResLI (a1 :: b1) = eraseLResLI (a2 :: b2) := by
              show List.map _ _ = List.map _ _
              simp only [List.map_cons]
              rw [show Except.map (List.map eraseI) a1 = Except.map (List.map eraseI) a2 from hg,
                show List.map (Except.map (List.map eraseI)) b1
                  = List.map (Except.map (List.map eraseI)) b2 from hg2]
            simp only [normP, Option.map, hc]
        · simp only [if_neg hlt]
    · intro n input
      simp only [arrays]
      cases hsub : path_substitution f input with
      | none =>
        dsimp only
        rcases normP_elim _ (ihArr n input) with ⟨h1, h2⟩ | ⟨r, m, a1, a2, h1, h2, hg⟩
        · rw [h1, h2]
        · simp only [h1, h2]
          rcases normP_elim _ (ihMA m r) with ⟨g1, g2⟩ | ⟨r2, m2, b1, b2, g1, g2, hg2⟩
          · rw [g1, g2]
          · simp only [g1, g2]
            have hE : b1.isEmpty = b2.isEmpty := map_eq_isEmpty hg2
            cases hb1 : b1.isEmpty with
            | true =>
              have hb2 : b2.isEmpty = true := by rw [← hE, hb1]
              simp only [hb1, hb2, normP, Option.map]
              rw [show eraseResLI a1 = eraseResLI a2 from hg]
            | false =>
              have hb2 : b2.isEmpty = false := by rw [← hE, hb1]
              simp only [hb1, hb2]
              have hx : Except.map (List.map (List.map eraseI)) (extract_result b1)
                  = Except.map (List.map (List.map eraseI)) (extract_result b2) := by
                rw [extract_result_map, extract_result_map]
                exact congrArg extract_result hg2
              rcases exceptMap_elim (List.map eraseI) hg with ⟨e, rfl, rfl⟩ |
                ⟨v1, v2, rfl, rfl, hv⟩
              · rfl
              · rcases exceptMap_elim (List.map (List.map eraseI)) hx with ⟨e, hx1, hx2⟩ |
                  ⟨l1, l2, hx1, hx2, hl⟩
                · rw [hx1, hx2]
                · rw [hx1, hx2]
                  simp only [normP, Option.map, Except.map, eraseResLI]
                  rw [List.map_append, List.map_append, List.map_flatten,
                    List.map_flatten, hv, hl]
      | some p =>
        obtain ⟨rs, vs⟩ := p
        dsimp only
        rcases normP_elim _ (ihArr n rs) with ⟨h1, h2⟩ | ⟨r, m, a1, a2, h1, h2, hg⟩
        · rw [h1, h2]
        · simp only [h1, h2]
          rcases normP_elim _ (ihMA m r) with ⟨g1, g2⟩ | ⟨r2, m2, b1, b2, g1, g2, hg2⟩
          · rw [g1, g2]
          · simp only [g1, g2]
            have hx : Except.map (List.map (List.map eraseI)) (extract_result b1)
                = Except.map (List.map (List.map eraseI)) (extract_result b2) := by
              rw [extract_result_map, extract_result_map]
              exact congrArg extract_result hg2
            rcases exceptMap_elim (List.map eraseI) hg with ⟨e, rfl, rfl⟩ |
              ⟨v1, v2, rfl, rfl, hv⟩
            · rfl
            · rcases exceptMap_elim (List.map (List.map eraseI)) hx with ⟨e, hx1, hx2⟩ |
                ⟨l1, l2, hx1, hx2, hl⟩
              · rw [hx1, hx2]
              · rw [hx1, hx2]
                have ht : List.map eraseI (v1 ++ l1.flatten)
                    = List.map eraseI (v2 ++ l2.flatten) := by
                  rw [List.map_append, List.map_append, List.map_flatten,
                    List.map_flatten, hv, hl]
                simp only [normP, Option.map, Except.map, eraseResLI, List.map_cons]
                rw [show List.map eraseI (v1 ++ l1.flatten)
                  = List.map eraseI (v2 ++ l2.flatten) from ht]
    · intro n input
      simp only [wrapper]
      rcases normP_elim _ (ihHashes n (possible_comment input)) with ⟨h1, h2⟩ |
        ⟨r, m, a1, a2, h1, h2, hg⟩
      · rw [h1, h2]
        rcases normP_elim _ (ihArrays n (possible_comment input)) with ⟨g1, g2⟩ |
          ⟨r, m, a1, a2, g1, g2, hg⟩
        · rw [g1, g2]
        · simp only [g1, g2]
          rcases exceptMap_elim (List.map eraseI) hg with ⟨e, rfl, rfl⟩ | ⟨v1, v2, rfl, rfl, hv⟩
          · rfl
          · simp only [normP, Option.map, Except.map, eraseResI]
            rw [eraseI_from_array, eraseI_from_array,
              show List.map eraseI v1 = List.map eraseI v2 from hv]
      · simp only [h1, h2]
        rcases exceptMap_elim eraseHash hg with ⟨e, rfl, rfl⟩ | ⟨hs1, hs2, rfl, rfl, hv⟩
        · rfl
        · simp only [normP, Option.map, Except.map, eraseResI]
          have : eraseI (HoconInternal.from_object hs1)
              = eraseI (HoconInternal.from_object hs2) := by
            simp [eraseI, HoconInternal.from_object, hv]
          rw [this]
    · intro n input
      simp only [root_include]
      cases hinc : wsP include_directive input with
      | none => rfl
      | some p =>
        obtain ⟨r1, inc⟩ := p
        dsimp only
        rcases normP_elim _ (ihRoot n r1) with ⟨h1, h2⟩ | ⟨r, m, a1, a2, h1, h2, hg⟩
        · rw [h1, h2]
        · simp only [h1, h2]
          rcases exceptMap_elim eraseI hg with ⟨e, rfl, rfl⟩ | ⟨d1, d2, rfl, rfl, hv⟩
          · rfl
          · cases hia : cfg.includeAdd inc with
            | error e =>
              simp [normP, Option.map, Except.bind, HoconInternal.add_include, hia,
                Except.map]
            | ok di =>
              have hInt : eraseHash d1.internal = eraseHash d2.internal :=
                congrArg HoconInternal.internal hv
              simp only [normP, Option.map, Except.bind, HoconInternal.add_include,
                hia, Except.map, eraseResI]
              have : eraseI (d1.add di) = eraseI (d2.add di) := by
                simp [eraseI, HoconInternal.add, eraseHash_append, hInt]
              rw [this]
    · intro n input
      simp only [root]
      rcases normP_elim _ (ihRI n (possible_comment input)) with ⟨h1, h2⟩ |
        ⟨r, m, a1, a2, h1, h2, hg⟩
      · rw [h1, h2]
        rcases normP_elim _ (ihRH n (possible_comment input)) with ⟨g1, g2⟩ |
          ⟨r, m, a1, a2, g1, g2, hg⟩
        · rw [g1, g2]
          rcases normP_elim _ (ihHash n (possible_comment input)) with ⟨k1, k2⟩ |
            ⟨r, m, a1, a2, k1, k2, hg⟩
          · rw [k1, k2]
            rcases normP_elim _ (ihArr n (possible_comment input)) with ⟨j1, j2⟩ |
              ⟨r, m, a1, a2, j1, j2, hg⟩
            · rw [j1, j2]
            · simp only [j1, j2]
              rcases exceptMap_elim (List.map eraseI) hg with ⟨e, rfl, rfl⟩ |
                ⟨v1, v2, rfl, rfl, hv⟩
              · rfl
              · simp only [normP, Option.map, Except.map, eraseResI]
                rw [eraseI_from_array, eraseI_from_array,
                  show List.map eraseI v1 = List.map eraseI v2 from hv]
          · simp only [k1, k2]
            rcases exceptMap_elim eraseHash hg with ⟨e, rfl, rfl⟩ | ⟨hs1, hs2, rfl, rfl, hv⟩
            · rfl
            · simp only [normP, Option.map, Except.map, eraseResI]
              have : eraseI (HoconInternal.from_object hs1)
                  = eraseI (HoconInternal.from_object hs2) := by
                simp [eraseI, HoconInternal.from_object, hv]
              rw [this]
        · simp only [g1, g2]
          rcases exceptMap_elim eraseHash hg with ⟨e, rfl, rfl⟩ | ⟨hs1, hs2, rfl, rfl, hv⟩
          · rfl
          · simp only [normP, Option.map, Except.map, eraseResI]
            have : eraseI (HoconInternal.from_object hs1)
                = eraseI (HoconInternal.from_object hs2) := by
              simp [eraseI, HoconInternal.from_object, hv]
            rw [this]
      · simp only [h1, h2, normP, Option.map]
        rw [show eraseResI a1 = eraseResI a2 from hg]


/-- C8 counterexample: two runs of `root` on the same text and configuration
but with different id draws (the model of `Uuid::new_v4`) produce Documents
whose `+=`-tagged entries carry different operation ids, so the outputs are
not identical as the claim requires. -/
theorem c8_counterexample :
    resultItemIds (root exampleConfig idsI 20 0 "k += 1\n\x00".data) = [some ['i']]
    ∧ resultItemIds (root exampleConfig idsJ 20 0 "k += 1\n\x00".data) = [some ['j']]
    ∧ resultItemIds (root exampleConfig idsI 20 0 "k += 1\n\x00".data)
      ≠ resultItemIds (root exampleConfig idsJ 20 0 "k += 1\n\x00".data) := by
  refine ⟨rfl, rfl, ?_⟩
  intro h
  rw [show resultItemIds (root exampleConfig idsI 20 0 "k += 1\n\x00".data)
      = [some ['i']] from rfl,
    show resultItemIds (root exampleConfig idsJ 20 0 "k += 1\n\x00".data)
      = [some ['j']] from rfl] at h
  simp at h

/-- C8 (amended): parsing is a pure function of (text, configuration) up to
the operation ids drawn for `+=` values: two runs of `root` with arbitrary
id-draw oracles, from the same draw counter, agree on success or failure, on
the remaining input and final counter, and on the entire Document after the
`ToConcatToArray` item ids are erased. -/
theorem c8_pure_up_to_ids (cfg : HoconLoaderConfig) (ids1 ids2 : Nat → List Char)
    (fuel n : Nat) (input : List Char) :
    normP eraseResI (root cfg ids1 fuel n input)
      = normP eraseResI (root cfg ids2 fuel n input) := by
  obtain ⟨-, -, -, -, -, -, -, -, -, -, -, -, -, -, -, -, h⟩ :=
    ids_invariance cfg ids1 ids2 fuel
  exact h n input

end Hocon

